import Mathlib

/-!
# Spreadsheet: cells, dependency edges, cycle detection, evaluation

A shallow embedding of `cell.cpp`, `sheet.cpp` and `formula.cpp`.

* A C++ `std::string` is a `List Char`.
* A `Cell*` is represented by the `Position` of the table slot that owns the
  cell.  `Sheet::SetCell` emplaces a cell only where the key is absent and no
  code erases a key of `mTable_`, so a slot owns at most one cell during the
  life of a sheet; a pointer is dangling exactly when its slot has been
  `reset()`.
* An `unordered_set<Cell*>` is a duplicate-free list; its iteration order is
  the list order.
* Undefined behaviour of the C++ program (calling through a null
  `unique_ptr`, reading a destroyed cell) is an explicit outcome.
* A finite `double` is the rational it denotes; arithmetic and the reading of
  numbers round to the nearest double (`roundDouble`), and a result that is not
  finite is an error.
* The search loop and the nested `GetValue` calls run on fuel; the outcome
  `diverged` marks exhausted fuel, and `Cell.IsCyclicDependency_not_diverged`,
  `Sheet.SetCell_not_diverged` and `Sheet.value_returns` show that the fuel
  granted is enough.
-/

namespace Spreadsheet

/-! ## Positions (`common.h`, not part of the sources at hand) -/

/-- A grid coordinate: `row` and `col` are C++ `int`s. -/
structure Position where
  row : Int
  col : Int
deriving DecidableEq, Repr

/-- Modelled from the spec: `Position::MAX_ROWS` of the absent `common.h`
("maximum row and column are implementation constants (e.g. 16384 rows, 16384 columns)"). -/
def Position.MAX_ROWS : Int := 16384

/-- Modelled from the spec: `Position::MAX_COLS` of the absent `common.h`. -/
def Position.MAX_COLS : Int := 16384

/-- Modelled from the spec: `Position::NONE` of the absent `common.h`, the result of a
failed or out-of-range parse ("any out-of-range parse yields an invalid Position"). -/
def Position.NONE : Position := ⟨-1, -1⟩

/-- Modelled from the spec: `Position::IsValid` of the absent `common.h`
("Invalid if either is negative or exceeds implementation bounds"). -/
def Position.IsValid (p : Position) : Bool :=
  decide (0 ≤ p.row) && decide (0 ≤ p.col) &&
    decide (p.row < Position.MAX_ROWS) && decide (p.col < Position.MAX_COLS)

/-- Modelled from the spec: `Position::operator<` of the absent `common.h`, the order of the
`std::set<Position>` in `Formula::GetReferencedCells` ("the Cell layer deduplicates and sorts"). -/
def Position.lt (a b : Position) : Bool :=
  decide (a.row < b.row) || (decide (a.row = b.row) && decide (a.col < b.col))

/-- Modelled from the spec: `FORMULA_SIGN` of the absent `common.h` (the formula sigil `=`). -/
def FORMULA_SIGN : Char := '='

/-- Modelled from the spec: `ESCAPE_SIGN` of the absent `common.h` (the escape sigil, an
apostrophe, code point 39). -/
def ESCAPE_SIGN : Char := Char.ofNat 39

/-- Modelled from the spec: the column letters of `Position::ToString` of the absent `common.h`
("column letters (A..Z, AA..AZ, BA..)"), least significant letter first. -/
def Position.colLetters : Nat → Nat → List Char
  | 0, _ => []
  | fuel + 1, c =>
    Char.ofNat (65 + c % 26) :: (if c / 26 = 0 then [] else Position.colLetters fuel (c / 26 - 1))

/-- Modelled from the spec: `Position::ToString` of the absent `common.h` ("the column letters
followed by 1-based row number"); the empty string for an invalid position. -/
def Position.ToString (p : Position) : List Char :=
  if p.IsValid then
    (Position.colLetters 8 p.col.toNat).reverse ++ Nat.toDigits 10 (p.row.toNat + 1)
  else []

/-- Value of a column written in letters, most significant first: `A` is 0, `Z` is 25,
`AA` is 26. -/
def Position.colOfLetters (ls : List Char) : Nat :=
  ls.foldl (fun acc c => acc * 26 + (c.toNat - 65 + 1)) 0 - 1

/-- Value of a decimal digit string. -/
def digitsValue (ds : List Char) : Nat :=
  ds.foldl (fun acc c => acc * 10 + (c.toNat - 48)) 0

/-- Modelled from the spec: `Position::FromString` of the absent `common.h` applied to
letters `ls` and digits `ds` ("rejects empty strings, ..., missing row, leading zeros in the
row, and out-of-range coordinates"). -/
def Position.FromString (ls ds : List Char) : Position :=
  if ls.isEmpty || ds.isEmpty || ds.head? = some '0' || decide (3 < ls.length)
      || decide (5 < ds.length) then Position.NONE
  else
    let p : Position := ⟨(digitsValue ds : Int) - 1, (Position.colOfLetters ls : Int)⟩
    if p.IsValid then p else Position.NONE

/-! ## Formula AST (`FormulaAST.h`, not part of the sources at hand) -/

/-- The three kinds of `FormulaError`. -/
inductive FormulaError where
  | Ref
  | Value
  | Arithmetic
deriving DecidableEq, Repr

/-- `FormulaError::ToString`. -/
def FormulaError.ToString : FormulaError → String
  | .Ref => "#REF!"
  | .Value => "#VALUE!"
  | .Arithmetic => "#ARITHM!"

/-- Binary operators of the formula grammar. -/
inductive BinOp where
  | Add
  | Sub
  | Mul
  | Div
deriving DecidableEq, Repr

/-- Modelled from the spec: the `FormulaAST` of the absent `FormulaAST.h` ("numeric literals,
cell references in canonical form, unary `+`/`-`, binary `+`, `-`, `*`, `/`, and
parentheses"). `unary true e` is `-e`, `unary false e` is `+e`. -/
inductive FormulaAST where
  | num (v : ℚ)
  | cell (p : Position)
  | unary (neg : Bool) (e : FormulaAST)
  | binary (op : BinOp) (l r : FormulaAST)
deriving DecidableEq

/-- Modelled from the spec: `FormulaAST::GetCells` of the absent `FormulaAST.h` ("the sequence
of cell references appearing in the AST, in left-to-right order"). -/
def FormulaAST.GetCells : FormulaAST → List Position
  | .num _ => []
  | .cell p => [p]
  | .unary _ e => e.GetCells
  | .binary _ l r => l.GetCells ++ r.GetCells

/-- `FormulaInterface::Value`, a `std::variant<double, FormulaError>`. -/
inductive FormulaValue where
  | num (d : ℚ)
  | err (e : FormulaError)
deriving DecidableEq

/-- `CellInterface::Value`, a `std::variant<std::string, double, FormulaError>`. -/
inductive Value where
  | str (s : List Char)
  | num (d : ℚ)
  | err (e : FormulaError)
deriving DecidableEq

/-! ## Formula parsing and printing (`FormulaAST.h`, not part of the sources at hand) -/

/-- Lexical tokens of the formula grammar. -/
inductive Token where
  | num (v : ℚ)
  | cell (p : Position)
  | plus
  | minus
  | star
  | slash
  | lparen
  | rparen
deriving DecidableEq

/-- White space skipped between tokens. -/
def isSpace (c : Char) : Bool :=
  c = ' ' || c = Char.ofNat 9 || c = Char.ofNat 10 || c = Char.ofNat 13

/-- Modelled from the spec: the lexer of the absent formula grammar ("numeric literals (decimal,
optionally with fractional part), cell references in canonical form"). -/
def tokenize : Nat → List Char → Option (List Token)
  | 0, _ => none
  | _ + 1, [] => some []
  | fuel + 1, c :: cs =>
    if isSpace c then tokenize fuel cs
    else if c = '+' then (tokenize fuel cs).map (Token.plus :: ·)
    else if c = '-' then (tokenize fuel cs).map (Token.minus :: ·)
    else if c = '*' then (tokenize fuel cs).map (Token.star :: ·)
    else if c = '/' then (tokenize fuel cs).map (Token.slash :: ·)
    else if c = '(' then (tokenize fuel cs).map (Token.lparen :: ·)
    else if c = ')' then (tokenize fuel cs).map (Token.rparen :: ·)
    else if c.isDigit then
      let ds := c :: cs.takeWhile Char.isDigit
      match cs.dropWhile Char.isDigit with
      | '.' :: r =>
        let fs := r.takeWhile Char.isDigit
        if fs.isEmpty then none
        else (tokenize fuel (r.dropWhile Char.isDigit)).map
          (Token.num ((digitsValue ds : ℚ) + (digitsValue fs : ℚ) / (10 : ℚ) ^ fs.length) :: ·)
      | r => (tokenize fuel r).map (Token.num (digitsValue ds : ℚ) :: ·)
    else if c.isUpper then
      let ls := c :: cs.takeWhile Char.isUpper
      let r := cs.dropWhile Char.isUpper
      let ds := r.takeWhile Char.isDigit
      if ds.isEmpty then none
      else (tokenize fuel (r.dropWhile Char.isDigit)).map
        (Token.cell (Position.FromString ls ds) :: ·)
    else none

mutual
/-- Modelled from the spec: operands of the absent formula grammar: literals, references,
signed operands and parenthesised expressions. -/
def parseAtom : Nat → List Token → Option (FormulaAST × List Token)
  | 0, _ => none
  | _ + 1, Token.num v :: r => some (FormulaAST.num v, r)
  | _ + 1, Token.cell p :: r => some (FormulaAST.cell p, r)
  | fuel + 1, Token.plus :: r =>
    match parseAtom fuel r with
    | some (e, r') => some (FormulaAST.unary false e, r')
    | none => none
  | fuel + 1, Token.minus :: r =>
    match parseAtom fuel r with
    | some (e, r') => some (FormulaAST.unary true e, r')
    | none => none
  | fuel + 1, Token.lparen :: r =>
    match parseSum fuel r with
    | some (e, Token.rparen :: r') => some (e, r')
    | _ => none
  | _ + 1, _ => none
/-- Modelled from the spec: a left-associative chain of `*` and `/`. -/
def parseProductRest : Nat → FormulaAST → List Token → Option (FormulaAST × List Token)
  | 0, _, _ => none
  | fuel + 1, l, Token.star :: r =>
    match parseAtom fuel r with
    | some (e, r') => parseProductRest fuel (FormulaAST.binary BinOp.Mul l e) r'
    | none => none
  | fuel + 1, l, Token.slash :: r =>
    match parseAtom fuel r with
    | some (e, r') => parseProductRest fuel (FormulaAST.binary BinOp.Div l e) r'
    | none => none
  | _ + 1, l, ts => some (l, ts)
/-- Modelled from the spec: a product of operands. -/
def parseProduct : Nat → List Token → Option (FormulaAST × List Token)
  | 0, _ => none
  | fuel + 1, ts =>
    match parseAtom fuel ts with
    | some (e, r) => parseProductRest fuel e r
    | none => none
/-- Modelled from the spec: a left-associative chain of `+` and `-`. -/
def parseSumRest : Nat → FormulaAST → List Token → Option (FormulaAST × List Token)
  | 0, _, _ => none
  | fuel + 1, l, Token.plus :: r =>
    match parseProduct fuel r with
    | some (e, r') => parseSumRest fuel (FormulaAST.binary BinOp.Add l e) r'
    | none => none
  | fuel + 1, l, Token.minus :: r =>
    match parseProduct fuel r with
    | some (e, r') => parseSumRest fuel (FormulaAST.binary BinOp.Sub l e) r'
    | none => none
  | _ + 1, l, ts => some (l, ts)
/-- Modelled from the spec: a sum of products ("conventional precedence and left
associativity"). -/
def parseSum : Nat → List Token → Option (FormulaAST × List Token)
  | 0, _ => none
  | fuel + 1, ts =>
    match parseProduct fuel ts with
    | some (e, r) => parseSumRest fuel e r
    | none => none
end

/-- Modelled from the spec: `ParseFormulaAST` of the absent `FormulaAST.h` ("returns an AST or
fails with a syntax error"); `none` is the syntax error. -/
def ParseFormulaAST (expression : List Char) : Option FormulaAST :=
  match tokenize (expression.length + 1) expression with
  | none => none
  | some ts =>
    match parseSum (4 * ts.length + 4) ts with
    | some (e, []) => some e
    | _ => none

/-- Digits of the fractional part `r / den`. -/
def fracDigits (den : Nat) : Nat → Nat → List Char
  | 0, _ => []
  | fuel + 1, r =>
    if r = 0 then [] else Nat.digitChar (r * 10 / den) :: fracDigits den fuel (r * 10 % den)

/-- Decimal form of a non-negative literal. -/
def printNum (v : ℚ) : List Char :=
  let n := v.num.toNat
  let fs := fracDigits v.den 20 (n % v.den)
  Nat.toDigits 10 (n / v.den) ++ (if fs.isEmpty then [] else '.' :: fs)

/-- Binding strength used by the printer: 1 for `+ -`, 2 for `* /`, 3 for a sign, 4 for an
operand. A unary plus is transparent. -/
def FormulaAST.prec : FormulaAST → Nat
  | .num _ => 4
  | .cell _ => 4
  | .unary true _ => 3
  | .unary false e => e.prec
  | .binary BinOp.Add _ _ => 1
  | .binary BinOp.Sub _ _ => 1
  | .binary BinOp.Mul _ _ => 2
  | .binary BinOp.Div _ _ => 2

/-- Wrap in parentheses when `b` holds. -/
def parenIf (b : Bool) (s : List Char) : List Char :=
  if b then '(' :: s ++ [')'] else s

/-- Modelled from the spec: `FormulaAST::PrintFormula` of the absent `FormulaAST.h` ("minimal
parentheses consistent with precedence, no redundant unary `+`, numeric literals in normalized
decimal form"). -/
def FormulaAST.PrintFormula : FormulaAST → List Char
  | .num v => printNum v
  | .cell p => p.ToString
  | .unary true e => '-' :: parenIf (decide (e.prec < 2)) e.PrintFormula
  | .unary false e => e.PrintFormula
  | .binary BinOp.Add l r => l.PrintFormula ++ '+' :: r.PrintFormula
  | .binary BinOp.Sub l r => l.PrintFormula ++ '-' :: parenIf (decide (r.prec < 2)) r.PrintFormula
  | .binary BinOp.Mul l r =>
    parenIf (decide (l.prec < 2)) l.PrintFormula ++ '*' :: parenIf (decide (r.prec < 2)) r.PrintFormula
  | .binary BinOp.Div l r =>
    parenIf (decide (l.prec < 2)) l.PrintFormula ++ '/' :: parenIf (decide (r.prec < 3)) r.PrintFormula

/-! ## Cell contents (`cell.cpp`) -/

/-- A `Cell*`: the position of the table slot owning the cell. -/
abbrev CellPtr := Position

/-- The three implementations of `Cell::Impl`, with their fields. -/
inductive Impl where
  | EmptyImpl
  | TextImpl (text_ value_ : List Char)
  | FormulaImpl (text_ : List Char) (formula_ : FormulaAST) (cache_ : Option FormulaValue)
deriving DecidableEq

/-- Constructor `TextImpl(std::string_view text)`: the value is the text without one leading
escape sign. -/
def Impl.mkText (text : List Char) : Impl :=
  match text with
  | c :: rest => Impl.TextImpl text (if c = ESCAPE_SIGN then rest else text)
  | [] => Impl.TextImpl text text

/-- Constructor `FormulaImpl(expression, sheet)`: parses what follows the first character;
`none` is the `FormulaException` of `Formula::Formula`. -/
def Impl.mkFormula (expression : List Char) : Option Impl :=
  match ParseFormulaAST (expression.drop 1) with
  | some ast => some (Impl.FormulaImpl (FORMULA_SIGN :: ast.PrintFormula) ast none)
  | none => none

/-- The classification at the head of `Cell::Set`; `none` is a `FormulaException`. -/
def Impl.ofText (text : List Char) : Option Impl :=
  match text with
  | [] => some Impl.EmptyImpl
  | c :: rest =>
    if c = FORMULA_SIGN ∧ 1 < (c :: rest).length then Impl.mkFormula (c :: rest)
    else some (Impl.mkText (c :: rest))

/-- Insertion into a `std::set<Position>`. -/
def setInsert (p : Position) : List Position → List Position
  | [] => [p]
  | q :: t => if p = q then q :: t else if p.lt q then p :: q :: t else q :: setInsert p t

/-- `Formula::GetReferencedCells`: the valid cells of the AST, sorted and without duplicates. -/
def Formula.GetReferencedCells (ast : FormulaAST) : List Position :=
  (ast.GetCells.filter Position.IsValid).foldl (fun cells cell => setInsert cell cells) []

/-- `Impl::GetReferencedCells`. -/
def Impl.GetReferencedCells : Impl → List Position
  | .EmptyImpl => []
  | .TextImpl _ _ => []
  | .FormulaImpl _ formula_ _ => Formula.GetReferencedCells formula_

/-- `Impl::GetText`. -/
def Impl.GetText : Impl → List Char
  | .EmptyImpl => []
  | .TextImpl text_ _ => text_
  | .FormulaImpl text_ _ _ => text_

/-- `Impl::IsCacheValid`: `true` in the base class, `cache_.has_value()` for a formula. -/
def Impl.IsCacheValid : Impl → Bool
  | .EmptyImpl => true
  | .TextImpl _ _ => true
  | .FormulaImpl _ _ cache_ => cache_.isSome

/-- `Impl::InvalidateCache`: nothing in the base class, `cache_.reset()` for a formula. -/
def Impl.InvalidateCache : Impl → Impl
  | .EmptyImpl => .EmptyImpl
  | .TextImpl t v => .TextImpl t v
  | .FormulaImpl t f _ => .FormulaImpl t f none

/-- The assignment `cache_ = v` of `FormulaImpl::GetValue`. -/
def Impl.fillCache (v : FormulaValue) : Impl → Impl
  | .FormulaImpl t f _ => .FormulaImpl t f (some v)
  | i => i

/-- A `Cell`: its implementation and the two pointer sets. -/
structure Cell where
  impl_ : Impl
  to_cells_ : List CellPtr
  from_cells_ : List CellPtr
deriving DecidableEq

/-- Constructor `Cell::Cell(Sheet&)`. -/
def Cell.new : Cell := ⟨Impl.EmptyImpl, [], []⟩

/-- `Cell::GetText`. -/
def Cell.GetText (c : Cell) : List Char := c.impl_.GetText

/-- `Cell::GetReferencedCells`. -/
def Cell.GetReferencedCells (c : Cell) : List Position := c.impl_.GetReferencedCells

/-- `Cell::IsReferenced`. -/
def Cell.IsReferenced (c : Cell) : Bool := !c.from_cells_.isEmpty

/-- `Cell::Clear`. -/
def Cell.Clear (c : Cell) : Cell := { c with impl_ := Impl.EmptyImpl }

/-- `unordered_set::insert`. -/
def ptrInsert (x : CellPtr) (l : List CellPtr) : List CellPtr :=
  if x ∈ l then l else l ++ [x]

/-- `unordered_set::erase`. -/
def ptrErase (x : CellPtr) (l : List CellPtr) : List CellPtr :=
  l.filter (fun y => decide (y ≠ x))

/-! ## The sheet (`sheet.cpp`) -/

/-- `mTable_.find(pos)`: `none` when the key is absent, `some none` when the key holds a null
`unique_ptr`, `some (some c)` when it owns the cell `c`. -/
def tableFind : List (Position × Option Cell) → Position → Option (Option Cell)
  | [], _ => none
  | (k, v) :: t, pos => if k = pos then some v else tableFind t pos

/-- Assignment to the `unique_ptr` stored under `pos`. -/
def tableAssign : List (Position × Option Cell) → Position → Option Cell →
    List (Position × Option Cell)
  | [], _, _ => []
  | (k, v) :: t, pos, w => if k = pos then (k, w) :: t else (k, v) :: tableAssign t pos w

/-- A `Sheet`: the table `mTable_` from positions to owned cells. -/
structure Sheet where
  mTable_ : List (Position × Option Cell)
deriving DecidableEq

/-- The sheet made by `CreateSheet`. -/
def Sheet.empty : Sheet := ⟨[]⟩

/-- Look up the slot of `pos`. -/
def Sheet.find (s : Sheet) (pos : Position) : Option (Option Cell) := tableFind s.mTable_ pos

/-- Read through a `Cell*`; `none` when the cell has been destroyed. -/
def Sheet.deref (s : Sheet) (p : CellPtr) : Option Cell :=
  match s.find p with
  | some (some c) => some c
  | _ => none

/-- Write through a `Cell*`. -/
def Sheet.store (s : Sheet) (p : CellPtr) (c : Cell) : Sheet := ⟨tableAssign s.mTable_ p (some c)⟩

/-- `cell->second.reset()`: the key stays, its `unique_ptr` becomes null. -/
def Sheet.reset (s : Sheet) (pos : Position) : Sheet := ⟨tableAssign s.mTable_ pos none⟩

/-- `mTable_.emplace(pos, std::make_unique<Cell>(*this))` for an absent key. -/
def Sheet.emplace (s : Sheet) (pos : Position) : Sheet := ⟨s.mTable_ ++ [(pos, some Cell.new)]⟩

/-- The exceptions of the API. -/
inductive Exn where
  | InvalidPositionException
  | FormulaException
  | CircularDependencyException
deriving DecidableEq, Repr

/-- Outcome of a `const` member function: a result, an exception, undefined behaviour, or a
loop that was cut off. -/
inductive Pure (α : Type) where
  | ok (a : α)
  | raised (e : Exn)
  | undefined
  | diverged
deriving DecidableEq

/-- Outcome of a member function that changes the sheet: normal return or exception, each with
the sheet it leaves, undefined behaviour, or a loop that was cut off. -/
inductive Res (α : Type) where
  | ok (a : α) (s : Sheet)
  | raised (e : Exn) (s : Sheet)
  | undefined
  | diverged
deriving DecidableEq

/-- `Sheet::GetCellPtr`: a null pointer for an absent key and for a key holding null. -/
def Sheet.GetCellPtr (s : Sheet) (pos : Position) : Except Exn (Option CellPtr) :=
  if !pos.IsValid then .error Exn.InvalidPositionException
  else
    match s.find pos with
    | none => .ok none
    | some none => .ok none
    | some (some _) => .ok (some pos)

/-- `Sheet::GetCell`. -/
def Sheet.GetCell (s : Sheet) (pos : Position) : Except Exn (Option CellPtr) := s.GetCellPtr pos

/-! ## Cycle detection (`Cell::IsCyclicDependency`) -/

/-- The loop `referenced.insert(sheet_.GetCellPtr(pos))`; the set may hold the null pointer. -/
def Cell.gatherReferenced (s : Sheet) : List Position → Except Exn (List (Option CellPtr))
  | [] => .ok []
  | pos :: rest =>
    match s.GetCellPtr pos with
    | .error e => .error e
    | .ok p =>
      match Cell.gatherReferenced s rest with
      | .error e => .error e
      | .ok ps => .ok (p :: ps)

/-- The `while (!to_visit.empty())` loop: the head of `to_visit` is the top of the stack. -/
def Cell.searchLoop (s : Sheet) (referenced : List (Option CellPtr)) :
    Nat → List CellPtr → List CellPtr → Pure Bool
  | 0, _, _ => .diverged
  | _ + 1, [], _ => .ok false
  | fuel + 1, current :: to_visit, visited =>
    let visited := ptrInsert current visited
    if some current ∈ referenced then .ok true
    else
      match s.deref current with
      | none => .undefined
      | some c =>
        Cell.searchLoop s referenced fuel
          ((c.from_cells_.filter (fun cell => decide (cell ∉ visited))).reverse ++ to_visit)
          visited

/-- Number of loop iterations granted to the search: two more than the number of pointers held
in all `from_cells_` sets. -/
def Sheet.searchFuel (s : Sheet) : Nat :=
  (s.mTable_.map (fun kv => match kv.2 with
    | some c => c.from_cells_.length
    | none => 0)).sum + 2

/-- `Cell::IsCyclicDependency`, called on the cell at `this`. -/
def Cell.IsCyclicDependency (s : Sheet) (this : CellPtr) (new_impl : Impl) : Pure Bool :=
  if new_impl.GetReferencedCells.isEmpty then .ok false
  else
    match Cell.gatherReferenced s new_impl.GetReferencedCells with
    | .error e => .raised e
    | .ok referenced => Cell.searchLoop s referenced s.searchFuel [this] []

/-! ## `Cell::Set`, `Sheet::SetCell`, `Sheet::ClearCell` -/

/-- The loop `for (Cell* from : from_cells_) from->from_cells_.erase(this)`; `none` when it
reads a destroyed cell or erases from the set it iterates. -/
def Cell.eraseFromReferrers (this : CellPtr) : Sheet → List CellPtr → Option Sheet
  | s, [] => some s
  | s, frm :: rest =>
    if frm = this then none
    else
      match s.deref frm with
      | none => none
      | some c =>
        Cell.eraseFromReferrers this
          (s.store frm { c with from_cells_ := ptrErase this c.from_cells_ }) rest

/-- The two inserts `to_cells_.insert(cell); cell->from_cells_.insert(this)`. -/
def Cell.link (s : Sheet) (this cell : CellPtr) : Option Sheet :=
  match s.deref this with
  | none => none
  | some c =>
    let s1 := s.store this { c with to_cells_ := ptrInsert cell c.to_cells_ }
    match s1.deref cell with
    | none => none
    | some d => some (s1.store cell { d with from_cells_ := ptrInsert this d.from_cells_ })

/-- The loop over `impl_->GetReferencedCells()` in `Cell::Set`; `SetCell` is the call
`sheet_.SetCell(pos, "")`. -/
def Cell.linkReferenced (SetCell : Sheet → Position → List Char → Res Unit) (this : CellPtr) :
    Sheet → List Position → Res Unit
  | s, [] => .ok () s
  | s, pos :: rest =>
    match s.GetCellPtr pos with
    | .error e => .raised e s
    | .ok (some cell) =>
      match Cell.link s this cell with
      | none => .undefined
      | some s1 => Cell.linkReferenced SetCell this s1 rest
    | .ok none =>
      match SetCell s pos [] with
      | .ok _ s1 =>
        match s1.GetCellPtr pos with
        | .error e => .raised e s1
        | .ok none => .undefined
        | .ok (some cell) =>
          match Cell.link s1 this cell with
          | none => .undefined
          | some s2 => Cell.linkReferenced SetCell this s2 rest
      | other => other

/-- The loop `for (Cell* from : from_cells_) from->impl_->InvalidateCache()`; `none` when it
reads a destroyed cell. -/
def Cell.invalidateReferrers : Sheet → List CellPtr → Option Sheet
  | s, [] => some s
  | s, frm :: rest =>
    match s.deref frm with
    | none => none
    | some c => Cell.invalidateReferrers (s.store frm { c with impl_ := c.impl_.InvalidateCache }) rest

/-- The tail of `Cell::Set`: `if (impl_->IsCacheValid()) { ... }`. -/
def Cell.invalidate (s : Sheet) (this : CellPtr) : Res Unit :=
  match s.deref this with
  | none => .undefined
  | some c =>
    if c.impl_.IsCacheValid then
      match Cell.invalidateReferrers (s.store this { c with impl_ := c.impl_.InvalidateCache })
          c.from_cells_ with
      | none => .undefined
      | some s1 => .ok () s1
    else .ok () s

/-- `Cell::Set`, called through the pointer `this`; `SetCell` is `Sheet::SetCell` as called
from inside. -/
def Cell.Set (SetCell : Sheet → Position → List Char → Res Unit) (s : Sheet) (this : CellPtr)
    (text : List Char) : Res Unit :=
  match s.deref this with
  | none => .undefined
  | some c =>
    match Impl.ofText text with
    | none => .raised Exn.FormulaException s
    | some impl =>
      match Cell.IsCyclicDependency s this impl with
      | .raised e => .raised e s
      | .undefined => .undefined
      | .diverged => .diverged
      | .ok true => .raised Exn.CircularDependencyException s
      | .ok false =>
        match Cell.eraseFromReferrers this (s.store this { c with impl_ := impl })
            c.from_cells_ with
        | none => .undefined
        | some s1 =>
          match Cell.linkReferenced SetCell this s1 impl.GetReferencedCells with
          | .ok _ s2 => Cell.invalidate s2 this
          | other => other

/-- `Sheet::SetCell` with the inner call of `Cell::Set` given by `nested`. -/
def Sheet.SetCellVia (nested : Sheet → Position → List Char → Res Unit) (s : Sheet)
    (pos : Position) (text : List Char) : Res Unit :=
  if !pos.IsValid then .raised Exn.InvalidPositionException s
  else
    match s.find pos with
    | none => Cell.Set nested (s.emplace pos) pos text
    | some _ => Cell.Set nested s pos text

/-- `Sheet::SetCell` as called by `Cell::Set` to create an empty cell: its own `Cell::Set`
gets the empty text, which references nothing and so calls `SetCell` no further. -/
def Sheet.SetCellInner (s : Sheet) (pos : Position) (text : List Char) : Res Unit :=
  Sheet.SetCellVia (fun _ _ _ => Res.diverged) s pos text

/-- `Sheet::SetCell`. -/
def Sheet.SetCell (s : Sheet) (pos : Position) (text : List Char) : Res Unit :=
  Sheet.SetCellVia Sheet.SetCellInner s pos text

/-- `Sheet::ClearCell`. -/
def Sheet.ClearCell (s : Sheet) (pos : Position) : Res Unit :=
  if !pos.IsValid then .raised Exn.InvalidPositionException s
  else
    match s.deref pos with
    | none => .ok () s
    | some c =>
      if !c.Clear.IsReferenced then .ok () ((s.store pos c.Clear).reset pos)
      else .ok () (s.store pos c.Clear)

/-! ## Evaluation (`Formula::Evaluate`, `FormulaImpl::GetValue`) -/

/-- Whether `2 ^ e ≤ n / d`, for a positive `d`. -/
def geTwoPow (n d : Nat) (e : Int) : Bool :=
  if 0 ≤ e then decide (d * 2 ^ e.toNat ≤ n) else decide (d ≤ n * 2 ^ (-e).toNat)

/-- Bisection for the largest `e` with `lo ≤ e < hi` and `2 ^ e ≤ n / d`; `lo` when there is
none. -/
def bisectExp (n d : Nat) : Nat → Int → Int → Int
  | 0, lo, _ => lo
  | fuel + 1, lo, hi =>
    if hi ≤ lo + 1 then lo
    else if geTwoPow n d ((lo + hi) / 2) then bisectExp n d fuel ((lo + hi) / 2) hi
    else bisectExp n d fuel lo ((lo + hi) / 2)

/-- The exponent of the binade of `n / d`, for `0 < n / d < 2 ^ 1024`: the integer `e` with
`2 ^ e ≤ n / d < 2 ^ (e + 1)`, and `-1022`, the exponent of the subnormal doubles, when that
is smaller. -/
def binadeExp (n d : Nat) : Int := bisectExp n d 12 (-1022) 1024

/-- Modelled from the spec: the "number (double-precision)" nearest to a rational. A finite
double is a rational `m * 2 ^ u` with `m < 2 ^ 53` and `-1074 ≤ u ≤ 971`; the rational is
rounded to the nearest of them, a tie to the one with the even `m`; `none` stands for a result
that is not finite (the rounding reaches `2 ^ 1024`). The sign of a zero is not kept. -/
def roundDouble (q : ℚ) : Option ℚ :=
  if q = 0 then some 0
  else
    let n := q.num.natAbs
    let d := q.den
    if d * 2 ^ 1024 ≤ n then none
    else
      let u : Int := binadeExp n d - 52
      let num' := if 0 ≤ u then n else n * 2 ^ (-u).toNat
      let den' := if 0 ≤ u then d * 2 ^ u.toNat else d
      let f := num' / den'
      let r := num' % den'
      let m := if 2 * r < den' then f else if den' < 2 * r then f + 1
        else if f % 2 = 0 then f else f + 1
      let a : ℚ := if 0 ≤ u then ((m * 2 ^ u.toNat : Nat) : ℚ)
        else (m : ℚ) / ((2 ^ (-u).toNat : Nat) : ℚ)
      if ((2 ^ 1024 : Nat) : ℚ) ≤ a then none else some (if q < 0 then -a else a)

/-- White space in the sense of `std::isspace` in the "C" locale: the space and the characters
9 to 13. -/
def isspace (c : Char) : Bool :=
  c = ' ' || (decide (9 ≤ c.toNat) && decide (c.toNat ≤ 13))

/-- An optional sign at the head of a text: whether it is `-`, and the text after it. -/
def readSign : List Char → Bool × List Char
  | [] => (false, [])
  | c :: r => if c = '-' then (true, r) else if c = '+' then (false, r) else (false, c :: r)

/-- A decimal point at the head of a text: the text after it. -/
def readPoint : List Char → Option (List Char)
  | [] => none
  | c :: r => if c = '.' then some r else none

/-- The power of ten `10 ^ e`, or `10 ^ (-e)` when `neg` holds. -/
def pow10 (neg : Bool) (e : Nat) : ℚ :=
  if neg then 1 / ((10 ^ e : Nat) : ℚ) else ((10 ^ e : Nat) : ℚ)

/-- Modelled from the spec: the end of a number with mantissa `x`, as `operator>>` reads it:
nothing, or an exponent (`e` or `E`, an optional sign, digits) that ends the text. The result
is the double nearest to the value. -/
def readExponent (x : ℚ) : List Char → Option ℚ
  | [] => roundDouble x
  | c :: r =>
    if c = 'e' ∨ c = 'E' then
      let se := readSign r
      let ed := se.2.takeWhile Char.isDigit
      if ed.isEmpty || !(se.2.dropWhile Char.isDigit).isEmpty then none
      else roundDouble (x * pow10 se.1 (digitsValue ed))
    else none

/-- Modelled from the spec: reading a number from the whole of a text ("if text parses in full
as a decimal number, return that number"), after the only code of the repository for it, the
lambda `args` of `Formula::Evaluate`: `std::istringstream in(text); if (!(in >> result) ||
!in.eof()) throw FormulaError(Value)`. `operator>>` skips leading white space and reads an
optional sign, digits with at most one decimal point, and an optional exponent; the number
read is the double nearest to the decimal value, and a value too large for a double is a
failed read. `none` is the failed or partial read. -/
def readDouble (t : List Char) : Option ℚ :=
  let st := readSign (t.dropWhile isspace)
  let ip := st.2.takeWhile Char.isDigit
  let t3 := st.2.dropWhile Char.isDigit
  let fp := match readPoint t3 with
    | some r => r.takeWhile Char.isDigit
    | none => []
  let t4 := match readPoint t3 with
    | some r => r.dropWhile Char.isDigit
    | none => t3
  let mant : ℚ := (digitsValue (ip ++ fp) : ℚ) / (10 : ℚ) ^ fp.length
  let sign : ℚ := if st.1 then -1 else 1
  if ip.isEmpty && fp.isEmpty then none
  else readExponent (sign * mant) t4

/-- Modelled from the spec: the number a referenced cell stands for, given its value ("Empty
cell → 0", "Text cell: if text parses in full as a decimal number, return that number;
otherwise FormulaError(Value). An empty text counts as 0", "Formula cell: propagate any
FormulaError"). The lambda `args` of `Formula::Evaluate` in `formula.cpp` spells the same rule
on the `Value` of the cell, but is not passed on: the call is `ast_.Execute(sheet)`. -/
def lookupValue : Value → FormulaValue
  | .num d => .num d
  | .str t =>
    if t.isEmpty then .num 0
    else
      match readDouble t with
      | some d => .num d
      | none => .err FormulaError.Value
  | .err e => .err e

/-- Modelled from the spec: the result of an arithmetic step as a double, or
`FormulaError(Arithmetic)` when it is not finite ("Intermediate overflow to infinity or NaN
maps to `Arithmetic`"). -/
def finiteOrError (q : ℚ) : FormulaValue :=
  match roundDouble q with
  | some d => .num d
  | none => .err FormulaError.Arithmetic

/-- Modelled from the spec: one binary operation of `FormulaAST::Execute` on doubles ("raising
FormulaError on arithmetic violations (division by zero, non-finite intermediate)"). -/
def applyOp : BinOp → ℚ → ℚ → FormulaValue
  | .Add, a, b => finiteOrError (a + b)
  | .Sub, a, b => finiteOrError (a - b)
  | .Mul, a, b => finiteOrError (a * b)
  | .Div, a, b => if b = 0 then .err FormulaError.Arithmetic else finiteOrError (a / b)

/-- Modelled from the spec: `FormulaAST::Execute` of the absent `FormulaAST.h`, with the
`FormulaError` it throws returned as a value (`Formula::Evaluate` catches it). `cellValue` is
the call `sheet.GetCell(p)->GetValue()`. Operands are evaluated left to right and the first
error ends the evaluation; a literal stands for the double nearest to it. -/
def FormulaAST.Execute (cellValue : Sheet → CellPtr → Res Value) :
    FormulaAST → Sheet → Res FormulaValue
  | .num v, s => .ok (finiteOrError v) s
  | .cell p, s =>
    if !p.IsValid then .ok (.err FormulaError.Ref) s
    else
      match s.GetCell p with
      | .error e => .raised e s
      | .ok none => .ok (.num 0) s
      | .ok (some ptr) =>
        match cellValue s ptr with
        | .ok v s1 => .ok (lookupValue v) s1
        | .raised e s1 => .raised e s1
        | .undefined => .undefined
        | .diverged => .diverged
  | .unary neg e, s =>
    match FormulaAST.Execute cellValue e s with
    | .ok (.num d) s1 => .ok (.num (if neg then -d else d)) s1
    | other => other
  | .binary op l r, s =>
    match FormulaAST.Execute cellValue l s with
    | .ok (.num a) s1 =>
      match FormulaAST.Execute cellValue r s1 with
      | .ok (.num b) s2 => .ok (applyOp op a b) s2
      | other => other
    | other => other

/-- `Formula::Evaluate`. -/
def Formula.Evaluate (cellValue : Sheet → CellPtr → Res Value) (ast : FormulaAST) (s : Sheet) :
    Res FormulaValue :=
  FormulaAST.Execute cellValue ast s

/-- The `FormulaInterface::Value` returned by `FormulaImpl::GetValue`, as a `Cell::Value`. -/
def FormulaValue.toValue : FormulaValue → Value
  | .num d => .num d
  | .err e => .err e

/-- The assignment to the `mutable` field `cache_` of the cell at `this`. -/
def Sheet.fillCache (s : Sheet) (this : CellPtr) (v : FormulaValue) : Sheet :=
  match s.deref this with
  | none => s
  | some c => s.store this { c with impl_ := c.impl_.fillCache v }

/-- `Cell::GetValue` through the pointer `this`. For a formula: `if (!cache_) cache_ =
formula_->Evaluate(sheet_)`, then the value of a second `formula_->Evaluate(sheet_)` is
returned. `fuel` bounds the depth of nested `GetValue` calls. -/
def Cell.GetValue : Nat → Sheet → CellPtr → Res Value
  | 0, _, _ => .diverged
  | fuel + 1, s, this =>
    match s.deref this with
    | none => .undefined
    | some c =>
      match c.impl_ with
      | .EmptyImpl => .ok (.str []) s
      | .TextImpl _ value_ => .ok (.str value_) s
      | .FormulaImpl _ formula_ none =>
        match Formula.Evaluate (Cell.GetValue fuel) formula_ s with
        | .ok v s1 =>
          match Formula.Evaluate (Cell.GetValue fuel) formula_ (s1.fillCache this v) with
          | .ok value s2 => .ok value.toValue s2
          | .raised e s2 => .raised e s2
          | .undefined => .undefined
          | .diverged => .diverged
        | .raised e s1 => .raised e s1
        | .undefined => .undefined
        | .diverged => .diverged
      | .FormulaImpl _ formula_ (some _) =>
        match Formula.Evaluate (Cell.GetValue fuel) formula_ s with
        | .ok value s1 => .ok value.toValue s1
        | .raised e s1 => .raised e s1
        | .undefined => .undefined
        | .diverged => .diverged

/-- The depth granted to `value()`: one more than the number of table entries. -/
def Sheet.valueFuel (s : Sheet) : Nat := s.mTable_.length + 1

/-- The text `GetCell(pos)->GetText()` of a present cell. -/
def Sheet.text (s : Sheet) (pos : Position) : Option (List Char) :=
  (s.deref pos).map Cell.GetText

/-- The value `GetCell(pos)->GetValue()`. -/
def Sheet.value (s : Sheet) (pos : Position) : Res Value := Cell.GetValue s.valueFuel s pos

/-- The result of a call without the sheet it leaves. -/
def Res.result {α : Type} : Res α → Pure α
  | .ok a _ => .ok a
  | .raised e _ => .raised e
  | .undefined => .undefined
  | .diverged => .diverged

/-- The sheet a call leaves behind, on normal return and on an exception. -/
def Res.sheet {α : Type} : Res α → Option Sheet
  | .ok _ s => some s
  | .raised _ s => some s
  | .undefined => none
  | .diverged => none

/-- A mutating call of the sheet API. -/
inductive Call where
  | set (pos : Position) (text : String)
  | clear (pos : Position)

/-- The sheet left by one call, if the call has defined behaviour. -/
def Sheet.step (s : Sheet) : Call → Option Sheet
  | .set pos text => (s.SetCell pos text.toList).sheet
  | .clear pos => (s.ClearCell pos).sheet

/-- The sheet left by a sequence of calls. -/
def Sheet.run : Sheet → List Call → Option Sheet
  | s, [] => some s
  | s, c :: rest =>
    match s.step c with
    | some s1 => Sheet.run s1 rest
    | none => none

/-- The sheets reachable from the empty sheet by `SetCell` and `ClearCell` calls, whether they
return or throw. -/
inductive Reachable : Sheet → Prop where
  | empty : Reachable Sheet.empty
  | SetCell {s s1 : Sheet} (pos : Position) (text : List Char) :
      Reachable s → (s.SetCell pos text).sheet = some s1 → Reachable s1
  | ClearCell {s s1 : Sheet} (pos : Position) :
      Reachable s → (s.ClearCell pos).sheet = some s1 → Reachable s1

/-- The cell at `u` references position `q` through its current content. -/
def Sheet.References (s : Sheet) (u q : Position) : Prop :=
  ∃ c, s.deref u = some c ∧ q ∈ c.GetReferencedCells

/-- The cell at `v` records `u` in its `from_cells_`. -/
def Sheet.Recorded (s : Sheet) (u v : Position) : Prop :=
  ∃ d, s.deref v = some d ∧ u ∈ d.from_cells_

/-- Position `A1`. -/
def A1 : Position := ⟨0, 0⟩

/-- Position `B1`. -/
def B1 : Position := ⟨0, 1⟩

/-- Position `A2`. -/
def A2 : Position := ⟨1, 0⟩

/-- Position `A3`. -/
def A3 : Position := ⟨2, 0⟩

/-- The cell at `q` after the erase loop of `Cell::Set` run for `this` over the set `l`. -/
def Cell.erased (this : CellPtr) (l : List CellPtr) (q : CellPtr) (x : Cell) : Cell :=
  { x with from_cells_ := if q ∈ l then ptrErase this x.from_cells_ else x.from_cells_ }

/-- The cell at `q` after the invalidation loop run over the set `l`. -/
def Cell.invalidated (l : List CellPtr) (q : CellPtr) (x : Cell) : Cell :=
  if q ∈ l then { x with impl_ := x.impl_.InvalidateCache } else x

/-- The cell at `q` after the referenced positions `refs` have been linked to `this`. -/
def Cell.linked (this : CellPtr) (refs : List Position) (q : CellPtr) (x : Cell) : Cell :=
  { x with
    to_cells_ := if q = this then refs.foldl (fun acc r => ptrInsert r acc) x.to_cells_
      else x.to_cells_
    from_cells_ := if q ∈ refs then ptrInsert this x.from_cells_ else x.from_cells_ }

/-- The cell at `q` once the positions `refs` without a cell have been given an empty one. -/
def Sheet.materialized (s : Sheet) (refs : List Position) (q : CellPtr) : Option Cell :=
  match s.deref q with
  | some x => some x
  | none => if q ∈ refs then some Cell.new else none

/-- The cell at `q` after the tail of `Cell::Set` run on a cell `c` at `this`. -/
def Cell.cacheDropped (this : CellPtr) (c : Cell) (q : CellPtr) (x : Cell) : Cell :=
  if c.impl_.IsCacheValid = true ∧ (q = this ∨ q ∈ c.from_cells_) then
    { x with impl_ := x.impl_.InvalidateCache }
  else x

/-- Whether `GetCell(pos)` returns a non-null handle. -/
def Sheet.present (s : Sheet) (pos : Position) : Bool :=
  match s.GetCell pos with
  | .ok (some _) => true
  | _ => false

/-- The cache slot of the cell at `pos`: `none` when there is no formula cell there. -/
def Sheet.cache (s : Sheet) (pos : Position) : Option (Option FormulaValue) :=
  match s.deref pos with
  | some ⟨Impl.FormulaImpl _ _ cache_, _, _⟩ => some cache_
  | _ => none

/-- The positions referenced by the current content of each table entry. -/
def Sheet.allReferenced (s : Sheet) : List (Position × List Position) :=
  s.mTable_.map (fun kv => (kv.1, match kv.2 with
    | some c => c.GetReferencedCells
    | none => []))

/-! ## Notions used by the proofs -/

/-- The cell with its cache slot emptied. -/
def Cell.eraseCache (c : Cell) : Cell := { c with impl_ := c.impl_.InvalidateCache }

/-- The sheet with every cache slot emptied: the current contents alone. -/
def Sheet.eraseCaches (s : Sheet) : Sheet :=
  ⟨s.mTable_.map (fun kv => (kv.1, kv.2.map Cell.eraseCache))⟩

/-- Two sheets with the same contents: cell by cell they differ in cache slots at most. -/
def Sheet.SameContents (s t : Sheet) : Prop :=
  ∀ q, (s.deref q).map Cell.eraseCache = (t.deref q).map Cell.eraseCache

/-- Two outcomes of a call started on sheets with the contents of `s`: the same kind of
outcome, the same result, and sheets that still have the contents of `s`. -/
def Res.Agree {α : Type} (s : Sheet) : Res α → Res α → Prop
  | .ok a t, .ok b u => a = b ∧ t.SameContents s ∧ u.SameContents s
  | .raised e t, .raised f u => e = f ∧ t.SameContents s ∧ u.SameContents s
  | .undefined, .undefined => True
  | .diverged, .diverged => True
  | _, _ => False

/-- `FormulaImpl::GetValue` with a populated cache: one evaluation. -/
def Cell.valueOnce (E : Sheet → Res FormulaValue) (s : Sheet) : Res Value :=
  match E s with
  | .ok value s1 => .ok value.toValue s1
  | .raised e s1 => .raised e s1
  | .undefined => .undefined
  | .diverged => .diverged

/-- `FormulaImpl::GetValue` with an empty cache: an evaluation that fills the cache, then the
evaluation whose value is returned. -/
def Cell.valueTwice (E : Sheet → Res FormulaValue) (this : CellPtr) (s : Sheet) : Res Value :=
  match E s with
  | .ok v s1 =>
    match E (s1.fillCache this v) with
    | .ok value s2 => .ok value.toValue s2
    | .raised e s2 => .raised e s2
    | .undefined => .undefined
    | .diverged => .diverged
  | .raised e s1 => .raised e s1
  | .undefined => .undefined
  | .diverged => .diverged

/-- The invariant behind acyclicity: every reference of a current content is recorded in the
`from_cells_` of a live target, and the recorded edges have no cycle. -/
def Sheet.Inv (s : Sheet) : Prop :=
  (∀ u q, s.References u q → s.Recorded u q) ∧ ∀ u, ¬ Relation.TransGen s.Recorded u u

/-- Number of pointers held in the `from_cells_` sets of the table entries whose key is not yet
visited. -/
def pendingFrom (visited : List CellPtr) : List (Position × Option Cell) → Nat
  | [] => 0
  | (k, v) :: t =>
    (if k ∈ visited then 0 else match v with
      | some c => c.from_cells_.length
      | none => 0) + pendingFrom visited t

/-- Stack discipline of the search: below the entries `above`, every stack entry that is
already visited has all its referrers visited or still waiting above it. -/
def stackOrdered (s : Sheet) (visited : List CellPtr) : List CellPtr → List CellPtr → Prop
  | _, [] => True
  | above, x :: below =>
    (x ∈ visited → ∀ c, s.deref x = some c → ∀ y ∈ c.from_cells_, y ∈ visited ∨ y ∈ above) ∧
      stackOrdered s visited (x :: above) below

/-- No `from_cells_` set holds a pointer to a destroyed cell. -/
def Sheet.NoDangling (s : Sheet) : Prop :=
  ∀ v d, s.deref v = some d → ∀ u ∈ d.from_cells_, (s.deref u).isSome

/-! ## Printable size (`Sheet::GetPrintableSize`) -/

/-- Modelled from the spec: `Size` of the absent `common.h`, the pair `(rows, cols)` of
`int`s returned by `printable_size()`. -/
structure Size where
  rows : Int
  cols : Int
deriving DecidableEq, Repr

/-- `Sheet::GetPrintableSize`: one pass over the table that skips null cells and cells with
empty text. -/
def Sheet.GetPrintableSize (s : Sheet) : Size :=
  s.mTable_.foldl (fun result kv =>
    match kv.2 with
    | none => result
    | some cell =>
      if cell.GetText.isEmpty then result
      else
        { rows := if result.rows ≤ kv.1.row then kv.1.row + 1 else result.rows
          cols := if result.cols ≤ kv.1.col then kv.1.col + 1 else result.cols }) ⟨0, 0⟩

/-- The keys of the table. -/
def Sheet.keys (s : Sheet) : List Position := s.mTable_.map Prod.fst

/-- The table of a sheet built through the API: distinct keys, all of them valid
positions. -/
def Sheet.WellFormed (s : Sheet) : Prop :=
  s.keys.Nodup ∧ ∀ k ∈ s.keys, k.IsValid = true

/-- The positions of the cells with non-empty `text()`. -/
def Sheet.printedCells (s : Sheet) : List Position :=
  s.mTable_.filterMap (fun kv =>
    match kv.2 with
    | none => none
    | some cell => if cell.GetText.isEmpty then none else some kv.1)

/-- The maximum of a list of numbers, and 0 for the empty list. -/
def maxOrZero : List Int → Int
  | [] => 0
  | [a] => a
  | a :: b :: t => max a (maxOrZero (b :: t))

/-- The printable size in the words of the spec: "componentwise max over (row+1, col+1) of
cells with non-empty `text()`, and (0,0) if none". -/
def Sheet.printableSizeSpec (s : Sheet) : Size :=
  ⟨maxOrZero (s.printedCells.map (fun p => p.row + 1)),
    maxOrZero (s.printedCells.map (fun p => p.col + 1))⟩

/-- Position `B2`. -/
def B2 : Position := ⟨1, 1⟩

/-! ## Sheets without null cells, operands before an invalid reference -/

/-- A decimal number as it is written: leading white space, an optional sign, digits before
the decimal point, optionally the point and the digits after it, and optionally an exponent:
its marker, its optional sign and its digits. -/
structure Numeral where
  ws : List Char
  sign : Option Bool
  ip : List Char
  fp : Option (List Char)
  exp : Option (Char × Option Bool × List Char)

/-- The digits written after the decimal point. -/
def Numeral.fraction (n : Numeral) : List Char := n.fp.getD []

/-- The rational a numeral denotes. -/
def Numeral.value (n : Numeral) : ℚ :=
  (if n.sign = some true then -1 else 1) *
    ((digitsValue (n.ip ++ n.fraction) : ℚ) / (10 : ℚ) ^ n.fraction.length) *
    (match n.exp with
      | none => 1
      | some (_, sg, ed) => pow10 (decide (sg = some true)) (digitsValue ed))

/-- The text is a decimal number: white space and digits where they are expected, a digit in
the mantissa, and an exponent, if written, marked by `e` or `E` and with a digit. -/
def Numeral.WellFormed (n : Numeral) : Prop :=
  (∀ c ∈ n.ws, isspace c = true) ∧ (∀ c ∈ n.ip, c.isDigit = true) ∧
    (∀ c ∈ n.fraction, c.isDigit = true) ∧ (n.ip ≠ [] ∨ n.fraction ≠ []) ∧
    ∀ m sg ed, n.exp = some (m, sg, ed) →
      (m = 'e' ∨ m = 'E') ∧ ed ≠ [] ∧ ∀ c ∈ ed, c.isDigit = true

/-! # Lemmas -/

/-! ## The table as a function of the position -/

theorem tableFind_assign (t : List (Position × Option Cell)) (p q : Position) (w : Option Cell) :
    tableFind (tableAssign t p w) q
      = if q = p then (tableFind t p).map (fun _ => w) else tableFind t q := by
  induction t with
  | nil => simp [tableAssign, tableFind]
  | cons kv t ih =>
    obtain ⟨k, v⟩ := kv
    by_cases hk : k = p
    · subst hk
      by_cases hq : q = k
      · subst hq; simp [tableAssign, tableFind]
      · have hq' : ¬ k = q := fun h => hq h.symm
        simp [tableAssign, tableFind, hq, hq']
    · by_cases hq : q = p
      · subst hq
        simp [tableAssign, tableFind, hk] at ih ⊢
        exact ih
      · by_cases hkq : k = q
        · simp [tableAssign, tableFind, hk, hq, hkq]
        · simp [tableAssign, tableFind, hk, hq, hkq] at ih ⊢
          exact ih

theorem tableFind_append (t : List (Position × Option Cell)) (p q : Position) (w : Option Cell) :
    tableFind (t ++ [(p, w)]) q
      = match tableFind t q with
        | some v => some v
        | none => if p = q then some w else none := by
  induction t with
  | nil => simp [tableFind]
  | cons kv t ih =>
    obtain ⟨k, v⟩ := kv
    by_cases hkq : k = q
    · simp [tableFind, hkq]
    · simp [tableFind, hkq]
      exact ih

theorem Sheet.deref_eq_some {s : Sheet} {p : CellPtr} {c : Cell} :
    s.deref p = some c ↔ s.find p = some (some c) := by
  unfold Sheet.deref
  constructor
  · intro h
    split at h
    · rename_i c' hc
      simp at h
      rw [hc, h]
    · simp at h
  · intro h
    rw [h]

theorem Sheet.deref_store {s : Sheet} {p : CellPtr} {c0 : Cell} (h : s.deref p = some c0)
    (c : Cell) (q : CellPtr) :
    (s.store p c).deref q = if q = p then some c else s.deref q := by
  have hf := Sheet.deref_eq_some.mp h
  unfold Sheet.find at hf
  by_cases hq : q = p
  · subst hq
    simp [Sheet.deref, Sheet.find, Sheet.store, tableFind_assign, hf]
  · simp [Sheet.deref, Sheet.find, Sheet.store, tableFind_assign, hq]

theorem Sheet.deref_reset (s : Sheet) (p q : CellPtr) :
    (s.reset p).deref q = if q = p then none else s.deref q := by
  by_cases hq : q = p
  · subst hq
    simp only [Sheet.deref, Sheet.find, Sheet.reset, tableFind_assign, if_true]
    cases tableFind s.mTable_ q <;> simp
  · simp [Sheet.deref, Sheet.find, Sheet.reset, tableFind_assign, hq]

theorem Sheet.deref_emplace {s : Sheet} {pos : Position} (h : s.find pos = none)
    (q : CellPtr) :
    (s.emplace pos).deref q = if q = pos then some Cell.new else s.deref q := by
  unfold Sheet.find at h
  by_cases hq : q = pos
  · subst hq
    simp [Sheet.deref, Sheet.find, Sheet.emplace, tableFind_append, h]
  · have hq' : ¬ pos = q := fun e => hq e.symm
    simp only [Sheet.deref, Sheet.find, Sheet.emplace, tableFind_append, hq, hq', if_false]
    cases tableFind s.mTable_ q <;> simp

theorem Sheet.deref_none_of_find_none {s : Sheet} {pos : Position} (h : s.find pos = none) :
    s.deref pos = none := by
  simp [Sheet.deref, h]

theorem setInsert_mem (p q : Position) (l : List Position) :
    q ∈ setInsert p l ↔ q = p ∨ q ∈ l := by
  induction l with
  | nil => simp [setInsert]
  | cons a t ih =>
    unfold setInsert
    split
    · rename_i h; subst h; simp
    · split
      · simp
      · simp [ih]; tauto

theorem foldl_setInsert_mem (l acc : List Position) (q : Position) :
    q ∈ l.foldl (fun cells cell => setInsert cell cells) acc ↔ q ∈ l ∨ q ∈ acc := by
  induction l generalizing acc with
  | nil => simp
  | cons a t ih => simp [ih, setInsert_mem]; tauto

theorem Formula.mem_GetReferencedCells (ast : FormulaAST) (q : Position) :
    q ∈ Formula.GetReferencedCells ast ↔ q ∈ ast.GetCells ∧ q.IsValid = true := by
  simp [Formula.GetReferencedCells, foldl_setInsert_mem]

theorem Impl.GetReferencedCells_valid (impl : Impl) (q : Position)
    (h : q ∈ impl.GetReferencedCells) : q.IsValid = true := by
  cases impl with
  | EmptyImpl => simp [Impl.GetReferencedCells] at h
  | TextImpl t v => simp [Impl.GetReferencedCells] at h
  | FormulaImpl t f c =>
    exact ((Formula.mem_GetReferencedCells f q).mp h).2

theorem Sheet.GetCellPtr_valid {s : Sheet} {pos : Position} (h : pos.IsValid = true) :
    s.GetCellPtr pos = .ok (if (s.deref pos).isSome then some pos else none) := by
  unfold Sheet.GetCellPtr Sheet.deref
  simp only [h]
  cases hf : s.find pos with
  | none => simp
  | some v => cases v <;> simp

theorem Cell.invalidate_not_raised (s : Sheet) (this : CellPtr) (e : Exn) (s1 : Sheet) :
    Cell.invalidate s this ≠ .raised e s1 := by
  unfold Cell.invalidate
  intro h
  split at h
  · simp at h
  · split at h
    · split at h <;> simp at h
    · simp at h

/-- `Cell::Set` with the empty text: no parse, no search, no referenced cell. -/
theorem Cell.Set_nil (nested : Sheet → Position → List Char → Res Unit) (s : Sheet)
    (this : CellPtr) :
    Cell.Set nested s this []
      = match s.deref this with
        | none => .undefined
        | some c =>
          match Cell.eraseFromReferrers this (s.store this { c with impl_ := Impl.EmptyImpl })
              c.from_cells_ with
          | none => .undefined
          | some s1 => Cell.invalidate s1 this := by
  unfold Cell.Set
  cases s.deref this with
  | none => rfl
  | some c =>
    simp only [Impl.ofText, Cell.IsCyclicDependency, Impl.GetReferencedCells, List.isEmpty_nil,
      if_true]
    cases Cell.eraseFromReferrers this (s.store this { c with impl_ := Impl.EmptyImpl })
        c.from_cells_ with
    | none => rfl
    | some s1 => simp [Cell.linkReferenced]

/-- The call `sheet_.SetCell(pos, "")` made for a referenced position without a cell: it
creates an empty cell where the key is absent and is undefined where the key holds null. -/
theorem Sheet.SetCellInner_nil {s : Sheet} {pos : Position} (hv : pos.IsValid = true)
    (hd : s.deref pos = none) :
    (∃ s1, Sheet.SetCellInner s pos [] = .ok () s1 ∧ s.find pos = none ∧
        ∀ q, s1.deref q = if q = pos then some Cell.new else s.deref q)
      ∨ Sheet.SetCellInner s pos [] = .undefined := by
  unfold Sheet.SetCellInner Sheet.SetCellVia
  simp only [hv, Bool.not_true, Bool.false_eq_true, if_false]
  cases hf : s.find pos with
  | some v =>
    right
    simp [Cell.Set_nil, hd]
  | none =>
    left
    have h0 := Sheet.deref_emplace hf
    have hpos : (s.emplace pos).deref pos = some Cell.new := by simp [h0]
    have h1 := Sheet.deref_store hpos { Cell.new with impl_ := Impl.EmptyImpl }
    have hpos1 : ((s.emplace pos).store pos { Cell.new with impl_ := Impl.EmptyImpl }).deref pos
        = some Cell.new := by rw [h1]; simp [Cell.new]
    have h2 := Sheet.deref_store hpos1 { Cell.new with impl_ := Impl.EmptyImpl.InvalidateCache }
    have hres : Cell.Set (fun _ _ _ => Res.diverged) (s.emplace pos) pos []
        = .ok () (((s.emplace pos).store pos { Cell.new with impl_ := Impl.EmptyImpl }).store pos
            { Cell.new with impl_ := Impl.EmptyImpl.InvalidateCache }) := by
      simp only [Cell.Set_nil, hpos]
      simp only [Cell.new, Cell.eraseFromReferrers, Cell.invalidate]
      simp only [Cell.new] at hpos1
      simp only [hpos1, Impl.IsCacheValid, if_true, Cell.invalidateReferrers]
    refine ⟨_, hres, rfl, ?_⟩
    intro q
    simp only [Cell.new, Impl.InvalidateCache] at h2 h1 h0 ⊢
    rw [h2, h1, h0]
    by_cases hq : q = pos <;> simp [hq]

/-! ## What the loops of `Cell::Set` do to each cell -/

theorem ptrErase_idem (x : CellPtr) (l : List CellPtr) :
    ptrErase x (ptrErase x l) = ptrErase x l := by
  simp [ptrErase, List.filter_filter]

theorem mem_ptrErase (x u : CellPtr) (l : List CellPtr) :
    u ∈ ptrErase x l ↔ u ∈ l ∧ u ≠ x := by
  simp [ptrErase]

theorem mem_ptrInsert (x u : CellPtr) (l : List CellPtr) :
    u ∈ ptrInsert x l ↔ u = x ∨ u ∈ l := by
  unfold ptrInsert
  split
  · rename_i h
    constructor
    · exact Or.inr
    · rintro (rfl | h') <;> assumption
  · simp; tauto

theorem ptrInsert_idem (x : CellPtr) (l : List CellPtr) :
    ptrInsert x (ptrInsert x l) = ptrInsert x l := by
  have h : x ∈ ptrInsert x l := (mem_ptrInsert x x l).mpr (Or.inl rfl)
  show (if x ∈ ptrInsert x l then ptrInsert x l else ptrInsert x l ++ [x]) = _
  rw [if_pos h]

theorem Cell.eraseFromReferrers_spec (this : CellPtr) (l : List CellPtr) :
    ∀ (s s1 : Sheet), Cell.eraseFromReferrers this s l = some s1 →
      this ∉ l ∧ (∀ q ∈ l, (s.deref q).isSome) ∧
        ∀ q, s1.deref q = (s.deref q).map (Cell.erased this l q) := by
  induction l with
  | nil =>
    intro s s1 h
    simp only [Cell.eraseFromReferrers, Option.some.injEq] at h
    subst h
    refine ⟨by simp, by simp, fun q => ?_⟩
    cases s.deref q <;> simp [Cell.erased]
  | cons frm rest ih =>
    intro s s1 h
    unfold Cell.eraseFromReferrers at h
    split at h
    · simp at h
    · rename_i hne
      split at h
      · simp at h
      · rename_i c hc
        obtain ⟨h1, h2, h3⟩ := ih _ _ h
        have hst := Sheet.deref_store hc { c with from_cells_ := ptrErase this c.from_cells_ }
        refine ⟨?_, ?_, ?_⟩
        · simp only [List.mem_cons, not_or]
          exact ⟨fun e => hne e.symm, h1⟩
        · intro q hq
          rcases List.mem_cons.mp hq with rfl | hq
          · simp [hc]
          · have := h2 q hq
            rw [hst] at this
            by_cases hqf : q = frm
            · subst hqf; simp [hc]
            · simpa [hqf] using this
        · intro q
          rw [h3 q, hst q]
          by_cases hqf : q = frm
          · subst hqf
            simp only [if_true, hc, Option.map_some', Cell.erased, List.mem_cons, true_or,
              ptrErase_idem]
            split <;> rfl
          · simp only [hqf, if_false]
            congr 1
            funext x
            simp [Cell.erased, hqf]

theorem Impl.InvalidateCache_idem (i : Impl) : i.InvalidateCache.InvalidateCache = i.InvalidateCache := by
  cases i <;> rfl

theorem Cell.invalidateReferrers_spec (l : List CellPtr) :
    ∀ (s s1 : Sheet), Cell.invalidateReferrers s l = some s1 →
      (∀ q ∈ l, (s.deref q).isSome) ∧
        ∀ q, s1.deref q = (s.deref q).map (Cell.invalidated l q) := by
  induction l with
  | nil =>
    intro s s1 h
    simp only [Cell.invalidateReferrers, Option.some.injEq] at h
    subst h
    refine ⟨by simp, fun q => ?_⟩
    cases s.deref q <;> simp [Cell.invalidated]
  | cons frm rest ih =>
    intro s s1 h
    unfold Cell.invalidateReferrers at h
    split at h
    · simp at h
    · rename_i c hc
      obtain ⟨h2, h3⟩ := ih _ _ h
      have hst := Sheet.deref_store hc { c with impl_ := c.impl_.InvalidateCache }
      refine ⟨?_, ?_⟩
      · intro q hq
        rcases List.mem_cons.mp hq with rfl | hq
        · simp [hc]
        · have := h2 q hq
          rw [hst] at this
          by_cases hqf : q = frm
          · subst hqf; simp [hc]
          · simpa [hqf] using this
      · intro q
        rw [h3 q, hst q]
        by_cases hqf : q = frm
        · subst hqf
          simp only [if_true, hc, Option.map_some', Cell.invalidated, List.mem_cons, true_or,
            Impl.InvalidateCache_idem]
          split <;> rfl
        · simp only [hqf, if_false]
          congr 1
          funext x
          simp [Cell.invalidated, hqf]

theorem Cell.link_spec {s s1 : Sheet} {this cell : CellPtr} (h : Cell.link s this cell = some s1) :
    (s.deref this).isSome ∧ (s.deref cell).isSome ∧
      ∀ q, s1.deref q = (s.deref q).map (Cell.linked this [cell] q) := by
  unfold Cell.link at h
  split at h
  · simp at h
  · rename_i c hc
    have hst := Sheet.deref_store hc { c with to_cells_ := ptrInsert cell c.to_cells_ }
    simp only at h
    split at h
    · simp at h
    · rename_i d hd
      have hst2 := Sheet.deref_store hd { d with from_cells_ := ptrInsert this d.from_cells_ }
      simp only [Option.some.injEq] at h
      subst h
      have hcell : (s.deref cell).isSome := by
        rw [hst] at hd
        by_cases e : cell = this
        · subst e; simp [hc]
        · simp only [e, if_false] at hd
          simp [hd]
      refine ⟨by simp [hc], hcell, fun q => ?_⟩
      rw [hst2, hst] at *
      by_cases hq : q = cell
      · subst hq
        by_cases hq2 : q = this
        · subst hq2
          simp only [if_true, Option.some.injEq] at hd
          subst hd
          simp [hc, Cell.linked]
        · simp only [hq2, if_false] at hd
          simp [hd, Cell.linked, hq2]
      · by_cases hq2 : q = this
        · subst hq2
          simp [hq, hc, Cell.linked]
        · simp only [hq, hq2, if_false]
          cases s.deref q <;> simp [Cell.linked, hq, hq2]

theorem Cell.linked_comp {s s1 : Sheet} {this pos : CellPtr} (rest : List Position)
    (hthis : (s.deref this).isSome)
    (h1 : ∀ q, s1.deref q = (s.materialized [pos] q).map (Cell.linked this [pos] q)) (q : CellPtr) :
    (s1.materialized rest q).map (Cell.linked this rest q)
      = (s.materialized (pos :: rest) q).map (Cell.linked this (pos :: rest) q) := by
  unfold Sheet.materialized at *
  rw [h1 q]
  cases hq : s.deref q with
  | some x =>
    simp only [Option.map_some', Option.some.injEq, Cell.linked, List.mem_singleton,
      List.foldl_cons, List.foldl_nil, List.mem_cons]
    by_cases hqp : q = pos
    · subst hqp
      by_cases hqt : q = this <;> by_cases hr : q ∈ rest <;> simp [hqt, hr, ptrInsert_idem]
    · by_cases hqt : q = this
      · subst hqt
        by_cases hr : q ∈ rest <;> simp [hqp, hr]
      · by_cases hr : q ∈ rest <;> simp [hqp, hqt, hr]
  | none =>
    have hqt : q ≠ this := by
      rintro rfl
      simp [hq] at hthis
    by_cases hqp : q = pos
    · subst hqp
      by_cases hr : q ∈ rest <;> simp [hr, Cell.linked, Cell.new, hqt, ptrInsert_idem]
    · by_cases hr : q ∈ rest <;> simp [hqp, hr, Cell.linked, Cell.new, hqt]

theorem Cell.linkReferenced_spec (this : CellPtr) (refs : List Position) :
    ∀ (s : Sheet), (∀ pos ∈ refs, pos.IsValid = true) → (s.deref this).isSome →
      (∃ s1, Cell.linkReferenced Sheet.SetCellInner this s refs = .ok () s1 ∧
          ∀ q, s1.deref q = (s.materialized refs q).map (Cell.linked this refs q))
        ∨ Cell.linkReferenced Sheet.SetCellInner this s refs = .undefined := by
  induction refs with
  | nil =>
    intro s _ _
    left
    refine ⟨s, rfl, fun q => ?_⟩
    unfold Sheet.materialized
    cases s.deref q <;> simp [Cell.linked]
  | cons pos rest ih =>
    intro s hv hthis
    have hvp : pos.IsValid = true := hv pos (List.mem_cons_self _ _)
    have hvr : ∀ p ∈ rest, p.IsValid = true := fun p hp => hv p (List.mem_cons_of_mem _ hp)
    unfold Cell.linkReferenced
    rw [Sheet.GetCellPtr_valid hvp]
    cases hpos : s.deref pos with
    | some d =>
      simp only [Option.isSome_some, if_true]
      cases hl : Cell.link s this pos with
      | none => right; rfl
      | some s1 =>
        obtain ⟨_, _, h1⟩ := Cell.link_spec hl
        have h1' : ∀ q, s1.deref q = (s.materialized [pos] q).map (Cell.linked this [pos] q) := by
          intro q
          rw [h1 q]
          unfold Sheet.materialized
          cases hq : s.deref q with
          | some x => rfl
          | none =>
            have : q ≠ pos := by rintro rfl; simp [hpos] at hq
            simp [this]
        have hthis1 : (s1.deref this).isSome := by
          rw [h1 this]
          simpa using hthis
        rcases ih s1 hvr hthis1 with ⟨s2, h2, h3⟩ | h2
        · left
          refine ⟨s2, h2, fun q => ?_⟩
          rw [h3 q]
          exact Cell.linked_comp rest hthis h1' q
        · right; exact h2
    | none =>
      simp only [Option.isSome_none, Bool.false_eq_true, if_false]
      rcases Sheet.SetCellInner_nil hvp hpos with ⟨s0, h0, hf0, hd0⟩ | h0
      · rw [h0]
        simp only
        have hp0 : s0.deref pos = some Cell.new := by simp [hd0]
        rw [Sheet.GetCellPtr_valid hvp]
        simp only [hp0, Option.isSome_some, if_true]
        cases hl : Cell.link s0 this pos with
        | none => right; rfl
        | some s1 =>
          obtain ⟨_, _, h1⟩ := Cell.link_spec hl
          have h1' : ∀ q, s1.deref q
              = (s.materialized [pos] q).map (Cell.linked this [pos] q) := by
            intro q
            rw [h1 q, hd0 q]
            unfold Sheet.materialized
            by_cases hq : q = pos
            · subst hq; simp [hpos]
            · simp only [hq, if_false, List.mem_singleton]
              cases s.deref q <;> rfl
          have hthis1 : (s1.deref this).isSome := by
            rw [h1' this]
            unfold Sheet.materialized
            cases ht : s.deref this with
            | some x => simp
            | none => simp [ht] at hthis
          rcases ih s1 hvr hthis1 with ⟨s2, h2, h3⟩ | h2
          · left
            refine ⟨s2, h2, fun q => ?_⟩
            rw [h3 q]
            exact Cell.linked_comp rest hthis h1' q
          · right; exact h2
      · right
        rw [h0]

theorem Cell.invalidate_spec {s s1 : Sheet} {this : CellPtr}
    (h : Cell.invalidate s this = .ok () s1) :
    ∃ c, s.deref this = some c ∧
      ∀ q, s1.deref q = (s.deref q).map (Cell.cacheDropped this c q) := by
  unfold Cell.invalidate at h
  split at h
  · simp at h
  · rename_i c hc
    refine ⟨c, hc, ?_⟩
    split at h
    · rename_i hv
      split at h
      · simp at h
      · rename_i s2 h2
        simp only [Res.ok.injEq, true_and] at h
        subst h
        obtain ⟨_, h3⟩ := Cell.invalidateReferrers_spec _ _ _ h2
        have hst := Sheet.deref_store hc { c with impl_ := c.impl_.InvalidateCache }
        intro q
        rw [h3 q, hst q]
        by_cases hq : q = this
        · subst hq
          simp only [if_true, Option.map_some', hc, Cell.invalidated, Cell.cacheDropped, hv,
            true_or, and_self, Impl.InvalidateCache_idem]
          split <;> rfl
        · simp only [hq, if_false]
          congr 1
          funext x
          simp [Cell.invalidated, Cell.cacheDropped, hv, hq]
    · rename_i hv
      simp only [Res.ok.injEq, true_and] at h
      subst h
      intro q
      cases s.deref q <;> simp [Cell.cacheDropped, hv]

theorem Cell.gatherReferenced_valid (s : Sheet) (refs : List Position)
    (hv : ∀ pos ∈ refs, pos.IsValid = true) :
    Cell.gatherReferenced s refs
      = .ok (refs.map (fun pos => if (s.deref pos).isSome then some pos else none)) := by
  induction refs with
  | nil => rfl
  | cons pos rest ih =>
    have hvp : pos.IsValid = true := hv pos (List.mem_cons_self _ _)
    have hvr : ∀ p ∈ rest, p.IsValid = true := fun p hp => hv p (List.mem_cons_of_mem _ hp)
    simp [Cell.gatherReferenced, Sheet.GetCellPtr_valid hvp, ih hvr]

/-- `Cell::IsCyclicDependency` throws nothing: the positions it looks up are valid. -/
theorem Cell.IsCyclicDependency_eq (s : Sheet) (this : CellPtr) (impl : Impl) :
    Cell.IsCyclicDependency s this impl
      = if impl.GetReferencedCells.isEmpty then .ok false
        else Cell.searchLoop s
          (impl.GetReferencedCells.map (fun pos => if (s.deref pos).isSome then some pos else none))
          s.searchFuel [this] [] := by
  unfold Cell.IsCyclicDependency
  rw [Cell.gatherReferenced_valid s _ (Impl.GetReferencedCells_valid impl)]

theorem Cell.searchLoop_not_raised (s : Sheet) (referenced : List (Option CellPtr)) (e : Exn) :
    ∀ (fuel : Nat) (to_visit visited : List CellPtr),
      Cell.searchLoop s referenced fuel to_visit visited ≠ .raised e := by
  intro fuel
  induction fuel with
  | zero => intro tv vis; simp [Cell.searchLoop]
  | succ n ih =>
    intro tv vis
    cases tv with
    | nil => simp [Cell.searchLoop]
    | cons cur rest =>
      unfold Cell.searchLoop
      simp only
      split
      · simp
      · split
        · simp
        · exact ih _ _

theorem Cell.IsCyclicDependency_not_raised (s : Sheet) (this : CellPtr) (impl : Impl) (e : Exn) :
    Cell.IsCyclicDependency s this impl ≠ .raised e := by
  rw [Cell.IsCyclicDependency_eq]
  split
  · simp
  · exact Cell.searchLoop_not_raised _ _ _ _ _ _

/-- An exception out of `Cell::Set` leaves the sheet as `Cell::Set` found it. -/
theorem Cell.Set_raised {s s1 : Sheet} {this : CellPtr} {text : List Char} {e : Exn}
    (h : Cell.Set Sheet.SetCellInner s this text = .raised e s1) :
    s1 = s ∧ (s.deref this).isSome ∧
      ((e = Exn.FormulaException ∧ Impl.ofText text = none) ∨
        (e = Exn.CircularDependencyException ∧
          ∃ impl, Impl.ofText text = some impl ∧ Cell.IsCyclicDependency s this impl = .ok true)) := by
  unfold Cell.Set at h
  split at h
  · simp at h
  · rename_i c hc
    split at h
    · rename_i hi
      simp only [Res.raised.injEq] at h
      exact ⟨h.2.symm, by simp [hc], Or.inl ⟨h.1.symm, hi⟩⟩
    · rename_i impl hi
      split at h
      · rename_i e' he
        exact absurd he (Cell.IsCyclicDependency_not_raised _ _ _ _)
      · simp at h
      · simp at h
      · rename_i hs
        simp only [Res.raised.injEq] at h
        exact ⟨h.2.symm, by simp [hc], Or.inr ⟨h.1.symm, impl, hi, hs⟩⟩
      · exfalso
        split at h
        · simp at h
        · rename_i s2 h2
          obtain ⟨_, _, h3⟩ := Cell.eraseFromReferrers_spec _ _ _ _ h2
          have hthis : (s2.deref this).isSome := by
            rw [h3 this, Sheet.deref_store hc]
            simp
          rcases Cell.linkReferenced_spec this impl.GetReferencedCells s2
            (Impl.GetReferencedCells_valid impl) hthis with ⟨s3, h4, _⟩ | h4
          · rw [h4] at h
            exact Cell.invalidate_not_raised _ _ _ _ h
          · rw [h4] at h
            simp at h

/-- A normal return of `Cell::Set`: the search found no cycle, and the sheet went through the
content replacement and the erase loop (`s1`), the link loop (`s2`) and the invalidation. -/
theorem Cell.Set_ok {s s3 : Sheet} {this : CellPtr} {text : List Char}
    (h : Cell.Set Sheet.SetCellInner s this text = .ok () s3) :
    ∃ (c : Cell) (impl : Impl) (s1 s2 : Sheet) (c2 : Cell),
      s.deref this = some c ∧ Impl.ofText text = some impl ∧
      Cell.IsCyclicDependency s this impl = .ok false ∧
      this ∉ c.from_cells_ ∧ (∀ q ∈ c.from_cells_, (s.deref q).isSome) ∧
      (∀ q, s1.deref q = (if q = this then some { c with impl_ := impl } else s.deref q).map
        (Cell.erased this c.from_cells_ q)) ∧
      (∀ q, s2.deref q = (s1.materialized impl.GetReferencedCells q).map
        (Cell.linked this impl.GetReferencedCells q)) ∧
      s2.deref this = some c2 ∧
      (∀ q, s3.deref q = (s2.deref q).map (Cell.cacheDropped this c2 q)) := by
  unfold Cell.Set at h
  split at h
  · simp at h
  · rename_i c hc
    split at h
    · simp at h
    · rename_i impl hi
      split at h
      · simp at h
      · simp at h
      · simp at h
      · simp at h
      · rename_i hs
        split at h
        · simp at h
        · rename_i s1 h1
          obtain ⟨hn, hl, h3⟩ := Cell.eraseFromReferrers_spec _ _ _ _ h1
          have hst := Sheet.deref_store hc { c with impl_ := impl }
          have hthis : (s1.deref this).isSome := by
            rw [h3 this, hst]
            simp
          have hl' : ∀ q ∈ c.from_cells_, (s.deref q).isSome := by
            intro q hq
            have hh := hl q hq
            rw [hst] at hh
            by_cases e : q = this
            · subst e; simp [hc]
            · simpa [e] using hh
          rcases Cell.linkReferenced_spec this impl.GetReferencedCells s1
            (Impl.GetReferencedCells_valid impl) hthis with ⟨s2, h4, h5⟩ | h4
          · rw [h4] at h
            simp only at h
            obtain ⟨c2, hc2, h6⟩ := Cell.invalidate_spec h
            refine ⟨c, impl, s1, s2, c2, hc, hi, hs, hn, hl', ?_, h5, hc2, h6⟩
            intro q
            rw [h3 q, hst q]
          · rw [h4] at h
            simp at h

theorem Impl.ofText_fresh {text : List Char} {impl : Impl} (h : Impl.ofText text = some impl) :
    (impl.IsCacheValid = true → impl.InvalidateCache = impl) := by
  intro hv
  cases impl with
  | EmptyImpl => rfl
  | TextImpl t v => rfl
  | FormulaImpl t f c =>
    cases c with
    | none => rfl
    | some v =>
      exfalso
      unfold Impl.ofText at h
      split at h
      · simp at h
      · split at h
        · unfold Impl.mkFormula at h
          split at h <;> simp at h
        · simp [Impl.mkText] at h

/-- After a normal return of `Cell::Set` the cell holds the content made from the text. -/
theorem Cell.Set_ok_impl {s s3 : Sheet} {this : CellPtr} {text : List Char}
    (h : Cell.Set Sheet.SetCellInner s this text = .ok () s3) :
    ∃ c3, s3.deref this = some c3 ∧ Impl.ofText text = some c3.impl_ := by
  obtain ⟨c, impl, s1, s2, c2, hc, hi, hs, hn, hl, h1, h2, hc2, h3⟩ := Cell.Set_ok h
  have e1 := h1 this
  simp only [if_true, Option.map_some'] at e1
  have e2 := h2 this
  unfold Sheet.materialized at e2
  rw [e1] at e2
  simp only [Option.map_some'] at e2
  rw [hc2] at e2
  have e3 := h3 this
  rw [hc2] at e3
  simp only [Option.map_some'] at e3
  refine ⟨_, e3, ?_⟩
  have himpl : c2.impl_ = impl := by
    simp only [Option.some.injEq] at e2
    rw [e2]
    rfl
  unfold Cell.cacheDropped
  split
  · rename_i hv
    rw [himpl] at hv ⊢
    simp only
    rw [Impl.ofText_fresh hi hv.1]
    exact hi
  · rw [himpl]; exact hi

/-- `Sheet::SetCell` is `Cell::Set` on the cell at `pos`, created first where the key is
absent. -/
theorem Sheet.SetCell_eq (s : Sheet) (pos : Position) (text : List Char) :
    s.SetCell pos text
      = if pos.IsValid = true then
          Cell.Set Sheet.SetCellInner (if s.find pos = none then s.emplace pos else s) pos text
        else .raised Exn.InvalidPositionException s := by
  unfold Sheet.SetCell Sheet.SetCellVia
  by_cases hv : pos.IsValid = true
  · simp only [hv, Bool.not_true, Bool.false_eq_true, if_false, if_true]
    cases s.find pos <;> simp
  · simp [hv]

theorem Impl.ofText_text {t : List Char} (hne : t ≠ [])
    (hnf : ¬ (t.head? = some FORMULA_SIGN ∧ 1 < t.length)) :
    Impl.ofText t
      = some (Impl.TextImpl t (if t.head? = some ESCAPE_SIGN then t.drop 1 else t)) := by
  cases t with
  | nil => exact absurd rfl hne
  | cons c rest =>
    unfold Impl.ofText
    have hc : ¬ (c = FORMULA_SIGN ∧ 1 < (c :: rest).length) := by
      intro h
      exact hnf ⟨by simp [h.1], h.2⟩
    simp only [hc, if_false, Impl.mkText, List.head?_cons, Option.some.injEq, List.drop_one,
      List.tail_cons]

theorem Sheet.emplace_ne (s : Sheet) (pos : Position) : s.emplace pos ≠ s := by
  intro h
  have := congrArg (fun t => t.mTable_.length) h
  simp [Sheet.emplace] at this

theorem Sheet.SameContents.refl (s : Sheet) : s.SameContents s := fun _ => rfl

theorem Sheet.SameContents.symm {s t : Sheet} (h : s.SameContents t) : t.SameContents s :=
  fun q => (h q).symm

theorem Sheet.SameContents.trans {s t u : Sheet} (h1 : s.SameContents t)
    (h2 : t.SameContents u) : s.SameContents u :=
  fun q => (h1 q).trans (h2 q)

theorem tableFind_map (t : List (Position × Option Cell)) (f : Cell → Cell) (q : Position) :
    tableFind (t.map (fun kv => (kv.1, kv.2.map f))) q = (tableFind t q).map (Option.map f) := by
  induction t with
  | nil => rfl
  | cons kv t ih =>
    obtain ⟨k, v⟩ := kv
    by_cases hk : k = q
    · simp [tableFind, hk]
    · simp only [List.map_cons, tableFind, hk, if_false]
      exact ih

theorem Sheet.deref_eraseCaches (s : Sheet) (q : CellPtr) :
    s.eraseCaches.deref q = (s.deref q).map Cell.eraseCache := by
  unfold Sheet.deref Sheet.find Sheet.eraseCaches
  rw [tableFind_map]
  cases tableFind s.mTable_ q with
  | none => rfl
  | some v => cases v <;> rfl

theorem Cell.eraseCache_idem (c : Cell) : c.eraseCache.eraseCache = c.eraseCache := by
  simp [Cell.eraseCache, Impl.InvalidateCache_idem]

theorem Sheet.sameContents_eraseCaches (s : Sheet) : s.SameContents s.eraseCaches := by
  intro q
  rw [Sheet.deref_eraseCaches]
  cases s.deref q <;> simp [Cell.eraseCache_idem]

theorem Impl.fillCache_InvalidateCache (v : FormulaValue) (i : Impl) :
    (i.fillCache v).InvalidateCache = i.InvalidateCache := by
  cases i <;> rfl

theorem Sheet.sameContents_fillCache (s : Sheet) (this : CellPtr) (v : FormulaValue) :
    (s.fillCache this v).SameContents s := by
  intro q
  unfold Sheet.fillCache
  cases hc : s.deref this with
  | none => rfl
  | some c =>
    simp only
    rw [Sheet.deref_store hc]
    by_cases hq : q = this
    · subst hq
      simp [hc, Cell.eraseCache, Impl.fillCache_InvalidateCache]
    · simp [hq]

theorem Sheet.SameContents.isSome {s t : Sheet} (h : s.SameContents t) (q : CellPtr) :
    (s.deref q).isSome = (t.deref q).isSome := by
  have := congrArg Option.isSome (h q)
  simpa using this

theorem Res.Agree.swap {α : Type} {s : Sheet} {r r' : Res α} (h : Res.Agree s r r') :
    Res.Agree s r' r := by
  cases r <;> cases r' <;> simp_all [Res.Agree]

theorem Res.Agree.chain {α : Type} {s : Sheet} {r1 r2 r3 : Res α} (h1 : Res.Agree s r1 r2)
    (h2 : Res.Agree s r2 r3) : Res.Agree s r1 r3 := by
  cases r1 <;> cases r2 <;> cases r3 <;> simp_all [Res.Agree]

theorem Res.Agree.base {α : Type} {s t : Sheet} {r r' : Res α} (hst : s.SameContents t)
    (h : Res.Agree s r r') : Res.Agree t r r' := by
  cases r <;> cases r' <;> simp_all [Res.Agree]
  · exact ⟨h.2.1.trans hst, h.2.2.trans hst⟩
  · exact ⟨h.2.1.trans hst, h.2.2.trans hst⟩

theorem Res.Agree.result {α : Type} {s : Sheet} {r r' : Res α} (h : Res.Agree s r r') :
    r.result = r'.result := by
  cases r <;> cases r' <;> simp_all [Res.Agree, Res.result]

theorem FormulaAST.Execute_agree (cv : Sheet → CellPtr → Res Value)
    (hcv : ∀ s t p, s.SameContents t → Res.Agree s (cv s p) (cv t p)) :
    ∀ (ast : FormulaAST) (s t : Sheet), s.SameContents t →
      Res.Agree s (FormulaAST.Execute cv ast s) (FormulaAST.Execute cv ast t) := by
  intro ast
  induction ast with
  | num v =>
    intro s t hst
    exact ⟨rfl, Sheet.SameContents.refl s, hst.symm⟩
  | cell p =>
    intro s t hst
    unfold FormulaAST.Execute
    by_cases hv : p.IsValid = true
    · simp only [hv, Bool.not_true, Bool.false_eq_true, if_false, Sheet.GetCell,
        Sheet.GetCellPtr_valid hv, ← hst.isSome p]
      cases hd : (s.deref p).isSome with
      | false =>
        simp only [Bool.false_eq_true, if_false]
        exact ⟨rfl, Sheet.SameContents.refl s, hst.symm⟩
      | true =>
        simp only [if_true]
        have h := hcv s t p hst
        clear hcv
        generalize cv s p = r at h
        generalize cv t p = r' at h
        cases r <;> cases r' <;>
          first | exact h | exact False.elim h | exact ⟨congrArg lookupValue h.1, h.2⟩
    · simp only [hv, Bool.not_false, if_true]
      exact ⟨rfl, Sheet.SameContents.refl s, hst.symm⟩
  | unary neg e ih =>
    intro s t hst
    unfold FormulaAST.Execute
    have h := ih s t hst
    clear ih hcv
    generalize FormulaAST.Execute cv e s = r at h
    generalize FormulaAST.Execute cv e t = r' at h
    cases r with
    | ok a s1 =>
      cases r' with
      | ok b t1 =>
        obtain ⟨rfl, h1, h2⟩ := h
        cases a <;> exact ⟨rfl, h1, h2⟩
      | raised e2 t1 => exact False.elim h
      | undefined => exact False.elim h
      | diverged => exact False.elim h
    | raised e1 s1 => cases r' <;> first | exact h | exact False.elim h
    | undefined => cases r' <;> first | exact h | exact False.elim h
    | diverged => cases r' <;> first | exact h | exact False.elim h
  | binary op l r ihl ihr =>
    intro s t hst
    unfold FormulaAST.Execute
    have h := ihl s t hst
    clear ihl hcv
    generalize FormulaAST.Execute cv l s = x at h
    generalize FormulaAST.Execute cv l t = x' at h
    cases x with
    | ok a s1 =>
      cases x' with
      | ok b t1 =>
        obtain ⟨rfl, h1, h2⟩ := h
        cases a with
        | err e1 => exact ⟨rfl, h1, h2⟩
        | num d =>
          have h' := (ihr s1 t1 (h1.trans h2.symm)).base h1
          clear ihr
          show Res.Agree s
            (match FormulaAST.Execute cv r s1 with
              | .ok (.num b) s2 => .ok (applyOp op d b) s2
              | other => other)
            (match FormulaAST.Execute cv r t1 with
              | .ok (.num b) s2 => .ok (applyOp op d b) s2
              | other => other)
          generalize FormulaAST.Execute cv r s1 = y at h'
          generalize FormulaAST.Execute cv r t1 = y' at h'
          cases y with
          | ok a2 s2 =>
            cases y' with
            | ok b2 t2 =>
              obtain ⟨rfl, h3, h4⟩ := h'
              cases a2 <;> exact ⟨rfl, h3, h4⟩
            | raised e2 t2 => exact False.elim h'
            | undefined => exact False.elim h'
            | diverged => exact False.elim h'
          | raised e1 s2 => cases y' <;> first | exact h' | exact False.elim h'
          | undefined => cases y' <;> first | exact h' | exact False.elim h'
          | diverged => cases y' <;> first | exact h' | exact False.elim h'
      | raised e2 t1 => exact False.elim h
      | undefined => exact False.elim h
      | diverged => exact False.elim h
    | raised e1 s1 => cases x' <;> first | exact h | exact False.elim h
    | undefined => cases x' <;> first | exact h | exact False.elim h
    | diverged => cases x' <;> first | exact h | exact False.elim h

theorem Cell.valueOnce_agree (E : Sheet → Res FormulaValue)
    (hE : ∀ s t, s.SameContents t → Res.Agree s (E s) (E t)) (s t : Sheet)
    (hst : s.SameContents t) : Res.Agree s (Cell.valueOnce E s) (Cell.valueOnce E t) := by
  unfold Cell.valueOnce
  have h := hE s t hst
  generalize E s = r at h
  generalize E t = r' at h
  cases r <;> cases r' <;> simp_all [Res.Agree]

theorem Cell.valueTwice_agree (E : Sheet → Res FormulaValue)
    (hE : ∀ s t, s.SameContents t → Res.Agree s (E s) (E t)) (this : CellPtr) (s : Sheet) :
    Res.Agree s (Cell.valueTwice E this s) (Cell.valueOnce E s) := by
  unfold Cell.valueTwice Cell.valueOnce
  have h := hE s s (Sheet.SameContents.refl s)
  cases hr : E s with
  | ok v s1 =>
    rw [hr] at h
    have h1 : s1.SameContents s := h.2.1
    have hf : (s1.fillCache this v).SameContents s :=
      (Sheet.sameContents_fillCache s1 this v).trans h1
    have h2 := (hE _ _ hf).base hf
    rw [hr] at h2
    simp only
    generalize E (s1.fillCache this v) = y at h2
    cases y <;> simp_all [Res.Agree]
  | raised e s1 => rw [hr] at h; simpa [Res.Agree] using h
  | undefined => simp [Res.Agree]
  | diverged => simp [Res.Agree]

theorem Cell.GetValue_agree :
    ∀ (fuel : Nat) (s t : Sheet) (p : CellPtr), s.SameContents t →
      Res.Agree s (Cell.GetValue fuel s p) (Cell.GetValue fuel t p) := by
  intro fuel
  induction fuel with
  | zero => intro s t p _; simp [Cell.GetValue, Res.Agree]
  | succ n ih =>
    intro s t p hst
    have hE : ∀ (f : FormulaAST) (s t : Sheet), s.SameContents t →
        Res.Agree s (Formula.Evaluate (Cell.GetValue n) f s)
          (Formula.Evaluate (Cell.GetValue n) f t) :=
      fun f => FormulaAST.Execute_agree (Cell.GetValue n) ih f
    have hself : Res.Agree s (Res.ok (Value.str []) s) (Res.ok (Value.str []) t) :=
      ⟨rfl, Sheet.SameContents.refl s, hst.symm⟩
    have hp := hst p
    unfold Cell.GetValue
    cases hs : s.deref p with
    | none =>
      rw [hs] at hp
      cases ht : t.deref p with
      | none => simp [Res.Agree]
      | some d => rw [ht] at hp; simp at hp
    | some c =>
      rw [hs] at hp
      cases ht : t.deref p with
      | none => rw [ht] at hp; simp at hp
      | some d =>
        rw [ht] at hp
        simp only [Option.map_some', Option.some.injEq, Cell.eraseCache, Cell.mk.injEq] at hp
        obtain ⟨hi, _, _⟩ := hp
        simp only
        cases hci : c.impl_ with
        | EmptyImpl =>
          cases hdi : d.impl_ with
          | EmptyImpl => exact hself
          | TextImpl t2 v2 => rw [hci, hdi] at hi; simp [Impl.InvalidateCache] at hi
          | FormulaImpl t2 f2 c2 => rw [hci, hdi] at hi; simp [Impl.InvalidateCache] at hi
        | TextImpl t1 v1 =>
          cases hdi : d.impl_ with
          | EmptyImpl => rw [hci, hdi] at hi; simp [Impl.InvalidateCache] at hi
          | TextImpl t2 v2 =>
            rw [hci, hdi] at hi
            simp only [Impl.InvalidateCache, Impl.TextImpl.injEq] at hi
            obtain ⟨_, rfl⟩ := hi
            exact ⟨rfl, Sheet.SameContents.refl s, hst.symm⟩
          | FormulaImpl t2 f2 c2 => rw [hci, hdi] at hi; simp [Impl.InvalidateCache] at hi
        | FormulaImpl t1 f1 c1 =>
          cases hdi : d.impl_ with
          | EmptyImpl => rw [hci, hdi] at hi; simp [Impl.InvalidateCache] at hi
          | TextImpl t2 v2 => rw [hci, hdi] at hi; simp [Impl.InvalidateCache] at hi
          | FormulaImpl t2 f2 c2 =>
            rw [hci, hdi] at hi
            simp only [Impl.InvalidateCache, Impl.FormulaImpl.injEq, and_true] at hi
            obtain ⟨_, rfl⟩ := hi
            have once := Cell.valueOnce_agree _ (hE f1) s t hst
            have twS := Cell.valueTwice_agree _ (hE f1) p s
            have twT := (Cell.valueTwice_agree _ (hE f1) p t).base hst.symm
            cases c1 with
            | none =>
              cases c2 with
              | none => exact (twS.chain once).chain twT.swap
              | some _ => exact twS.chain once
            | some _ =>
              cases c2 with
              | none => exact once.chain twT.swap
              | some _ => exact once

theorem Cell.GetValue_formula {s : Sheet} {p : CellPtr} {c : Cell} {t : List Char}
    {f : FormulaAST} {cache : Option FormulaValue} (fuel : Nat) (hc : s.deref p = some c)
    (hi : c.impl_ = Impl.FormulaImpl t f cache) :
    Cell.GetValue (fuel + 1) s p
      = match cache with
        | none => Cell.valueTwice (Formula.Evaluate (Cell.GetValue fuel) f) p s
        | some _ => Cell.valueOnce (Formula.Evaluate (Cell.GetValue fuel) f) s := by
  unfold Cell.GetValue
  simp only [hc, hi]
  cases cache <;> rfl

/-! ## The search of `IsCyclicDependency` is exhaustive -/

/-- Adding edges out of one vertex `a` to targets that do not reach `a` keeps a graph acyclic. -/
theorem acyclic_of_added_edges {α : Type} (R R' : α → α → Prop) (a : α) (N : α → Prop)
    (hsub : ∀ u v, R' u v → R u v ∨ (u = a ∧ N v))
    (hac : ∀ u, ¬ Relation.TransGen R u u)
    (hN : ∀ r, N r → ¬ Relation.ReflTransGen R r a) :
    ∀ u, ¬ Relation.TransGen R' u u := by
  have hA : ∀ y, Relation.ReflTransGen R' y a → Relation.ReflTransGen R y a := by
    intro y hy
    induction hy using Relation.ReflTransGen.head_induction_on with
    | refl => exact Relation.ReflTransGen.refl
    | head hyz _ ih =>
      rcases hsub _ _ hyz with h | ⟨rfl, _⟩
      · exact Relation.ReflTransGen.head h ih
      · exact Relation.ReflTransGen.refl
  have hB : ∀ x y, Relation.TransGen R' x y →
      Relation.TransGen R x y ∨
        (Relation.ReflTransGen R' x a ∧ ∃ r, N r ∧ Relation.ReflTransGen R' r y) := by
    intro x y hxy
    induction hxy with
    | single h =>
      rcases hsub _ _ h with h | ⟨rfl, hn⟩
      · exact Or.inl (Relation.TransGen.single h)
      · exact Or.inr ⟨Relation.ReflTransGen.refl, _, hn, Relation.ReflTransGen.refl⟩
    | tail hxz hzy ih =>
      rcases ih with ih | ⟨h1, r, hr, h2⟩
      · rcases hsub _ _ hzy with h | ⟨rfl, hn⟩
        · exact Or.inl (Relation.TransGen.tail ih h)
        · exact Or.inr ⟨hxz.to_reflTransGen, _, hn, Relation.ReflTransGen.refl⟩
      · exact Or.inr ⟨h1, r, hr, Relation.ReflTransGen.tail h2 hzy⟩
  intro u hu
  rcases hB u u hu with h | ⟨h1, r, hr, h2⟩
  · exact hac u h
  · exact hN r hr (hA r (h2.trans h1))

/-- When the search loop ends with `false`, everything that reaches a cell of the stack or of
the visited set along `from_cells_` links is a live cell outside `referenced`. -/
theorem Cell.searchLoop_false (s : Sheet) (referenced : List (Option CellPtr)) :
    ∀ (fuel : Nat) (to_visit visited : List CellPtr),
      Cell.searchLoop s referenced fuel to_visit visited = .ok false →
      (∀ v ∈ visited, some v ∉ referenced ∧ (s.deref v).isSome ∧
        ∀ u, s.Recorded u v → u ∈ visited ∨ u ∈ to_visit) →
      ∀ x y, (y ∈ to_visit ∨ y ∈ visited) → Relation.ReflTransGen s.Recorded x y →
        some x ∉ referenced ∧ (s.deref x).isSome := by
  intro fuel
  induction fuel with
  | zero => intro tv vis h; simp [Cell.searchLoop] at h
  | succ n ih =>
    intro tv vis h hP
    cases tv with
    | nil =>
      have hclosed : ∀ x y, y ∈ vis → Relation.ReflTransGen s.Recorded x y → x ∈ vis := by
        intro x y hy hxy
        induction hxy using Relation.ReflTransGen.head_induction_on with
        | refl => exact hy
        | head hxz _ ih' =>
          rcases (hP _ ih').2.2 _ hxz with h1 | h1
          · exact h1
          · simp at h1
      intro x y hy hxy
      rcases hy with hy | hy
      · simp at hy
      · have hx := hclosed x y hy hxy
        exact ⟨(hP x hx).1, (hP x hx).2.1⟩
    | cons cur rest =>
      unfold Cell.searchLoop at h
      simp only at h
      split at h
      · simp at h
      · rename_i hcur
        split at h
        · simp at h
        · rename_i c hc
          have hP' : ∀ v ∈ ptrInsert cur vis, some v ∉ referenced ∧ (s.deref v).isSome ∧
              ∀ u, s.Recorded u v → u ∈ ptrInsert cur vis ∨
                u ∈ (c.from_cells_.filter (fun cell => decide (cell ∉ ptrInsert cur vis))).reverse
                  ++ rest := by
            intro v hv
            rcases (mem_ptrInsert cur v vis).mp hv with rfl | hv
            · refine ⟨hcur, by simp [hc], fun u hu => ?_⟩
              obtain ⟨d, hd, hud⟩ := hu
              rw [hc] at hd
              simp only [Option.some.injEq] at hd
              subst hd
              by_cases hin : u ∈ ptrInsert v vis
              · exact Or.inl hin
              · right
                simp [hud, hin]
            · obtain ⟨h1, h2, h3⟩ := hP v hv
              refine ⟨h1, h2, fun u hu => ?_⟩
              rcases h3 u hu with h4 | h4
              · exact Or.inl ((mem_ptrInsert cur u vis).mpr (Or.inr h4))
              · rcases List.mem_cons.mp h4 with rfl | h4
                · exact Or.inl ((mem_ptrInsert u u vis).mpr (Or.inl rfl))
                · right
                  simp [h4]
          intro x y hy hxy
          apply ih _ _ h hP' x y _ hxy
          rcases hy with hy | hy
          · rcases List.mem_cons.mp hy with rfl | hy
            · exact Or.inr ((mem_ptrInsert y y vis).mpr (Or.inl rfl))
            · left
              simp [hy]
          · exact Or.inr ((mem_ptrInsert cur y vis).mpr (Or.inr hy))

/-- When `IsCyclicDependency` answers `false`, no referenced position reaches the cell along
`from_cells_` links. -/
theorem Cell.IsCyclicDependency_false {s : Sheet} {this : CellPtr} {impl : Impl}
    (h : Cell.IsCyclicDependency s this impl = .ok false) :
    ∀ r ∈ impl.GetReferencedCells, ¬ Relation.ReflTransGen s.Recorded r this := by
  rw [Cell.IsCyclicDependency_eq] at h
  split at h
  · rename_i he
    intro r hr
    simp only [List.isEmpty_iff] at he
    rw [he] at hr
    simp at hr
  · intro r hr hreach
    have := Cell.searchLoop_false s _ _ _ _ h (by simp) r this (Or.inl (by simp)) hreach
    obtain ⟨h1, h2⟩ := this
    apply h1
    simp only [List.mem_map]
    exact ⟨r, hr, by simp [h2]⟩

/-! ## The recorded edges stay acyclic and cover the references -/

theorem mem_of_mem_ite_ptrErase {P : Prop} [Decidable P] {u x : CellPtr} {l : List CellPtr}
    (h : u ∈ (if P then ptrErase x l else l)) : u ∈ l := by
  split at h
  · exact ((mem_ptrErase _ _ _).mp h).1
  · exact h

theorem Impl.InvalidateCache_refs (i : Impl) :
    i.InvalidateCache.GetReferencedCells = i.GetReferencedCells := by
  cases i <;> rfl

theorem Cell.cacheDropped_from (this : CellPtr) (c : Cell) (q : CellPtr) (x : Cell) :
    (Cell.cacheDropped this c q x).from_cells_ = x.from_cells_ := by
  unfold Cell.cacheDropped
  split <;> rfl

theorem Cell.cacheDropped_refs (this : CellPtr) (c : Cell) (q : CellPtr) (x : Cell) :
    (Cell.cacheDropped this c q x).GetReferencedCells = x.GetReferencedCells := by
  unfold Cell.cacheDropped
  split
  · simp [Cell.GetReferencedCells, Impl.InvalidateCache_refs]
  · rfl

/-- What a normal return of `Cell::Set` does to one cell: the cell `x3` found at `q` afterwards
comes from the cell `x` found there before (or from a new empty cell, for a referenced
position without one); only the cell at `this` changes its referenced positions, and the
`from_cells_` sets change by the erased and the inserted pointer `this`. -/
theorem Cell.Set_ok_cell {s s3 : Sheet} {this : CellPtr} {text : List Char}
    (h : Cell.Set Sheet.SetCellInner s this text = .ok () s3) :
    ∃ (c : Cell) (impl : Impl), s.deref this = some c ∧ Impl.ofText text = some impl ∧
      Cell.IsCyclicDependency s this impl = .ok false ∧
      (∀ q x3, s3.deref q = some x3 →
        (x3.GetReferencedCells = if q = this then impl.GetReferencedCells else
            match s.deref q with
            | some x => x.GetReferencedCells
            | none => []) ∧
        (s.deref q = none → q ∈ impl.GetReferencedCells) ∧
        ∀ u, u ∈ x3.from_cells_ →
          (u = this ∧ q ∈ impl.GetReferencedCells) ∨
            ∃ x, s.deref q = some x ∧ u ∈ x.from_cells_) ∧
      (∀ q x, s.deref q = some x → ∃ x3, s3.deref q = some x3 ∧
        ∀ u, u ∈ x.from_cells_ → u ≠ this → u ∈ x3.from_cells_) ∧
      (∀ q, q ∈ impl.GetReferencedCells → ∃ x3, s3.deref q = some x3 ∧ this ∈ x3.from_cells_) := by
  obtain ⟨c, impl, s1, s2, c2, hc, hi, hs, hn, hl, h1, h2, hc2, h3⟩ := Cell.Set_ok h
  refine ⟨c, impl, hc, hi, hs, ?_, ?_, ?_⟩
  · intro q x3 hx3
    rw [h3 q] at hx3
    obtain ⟨x2, hx2, rfl⟩ := Option.map_eq_some'.mp hx3
    rw [h2 q] at hx2
    obtain ⟨m, hm, rfl⟩ := Option.map_eq_some'.mp hx2
    rw [Cell.cacheDropped_refs, Cell.cacheDropped_from]
    unfold Sheet.materialized at hm
    rw [h1 q] at hm
    by_cases hq : q = this
    · subst hq
      simp only [if_true, Option.map_some', Option.some.injEq] at hm
      subst hm
      refine ⟨by simp [Cell.linked, Cell.erased, Cell.GetReferencedCells], by simp [hc], ?_⟩
      intro u hu
      simp only [Cell.linked, Cell.erased] at hu
      by_cases hqr : q ∈ impl.GetReferencedCells
      · simp only [hqr, if_true] at hu
        rcases (mem_ptrInsert _ _ _).mp hu with h4 | h4
        · exact Or.inl ⟨h4, hqr⟩
        · exact Or.inr ⟨c, hc, by first | exact h4 | exact mem_of_mem_ite_ptrErase h4⟩
      · simp only [hqr, if_false] at hu
        exact Or.inr ⟨c, hc, by first | exact hu | exact mem_of_mem_ite_ptrErase hu⟩
    · simp only [hq, if_false] at hm ⊢
      cases hsq : s.deref q with
      | some x =>
        rw [hsq] at hm
        simp only [Option.map_some', Option.some.injEq] at hm
        subst hm
        refine ⟨by simp [Cell.linked, Cell.erased, Cell.GetReferencedCells], by simp, ?_⟩
        intro u hu
        simp only [Cell.linked, Cell.erased] at hu
        by_cases hqr : q ∈ impl.GetReferencedCells
        · simp only [hqr, if_true] at hu
          rcases (mem_ptrInsert _ _ _).mp hu with h4 | h4
          · exact Or.inl ⟨h4, hqr⟩
          · exact Or.inr ⟨x, rfl, by first | exact h4 | exact mem_of_mem_ite_ptrErase h4⟩
        · simp only [hqr, if_false] at hu
          exact Or.inr ⟨x, rfl, by first | exact hu | exact mem_of_mem_ite_ptrErase hu⟩
      | none =>
        rw [hsq] at hm
        simp only [Option.map_none'] at hm
        split at hm
        · rename_i hqr
          simp only [Option.some.injEq] at hm
          subst hm
          refine ⟨by simp [Cell.linked, Cell.new, Cell.GetReferencedCells,
            Impl.GetReferencedCells], fun _ => hqr, ?_⟩
          intro u hu
          simp only [Cell.linked, Cell.new, hqr, if_true] at hu
          rcases (mem_ptrInsert _ _ _).mp hu with h4 | h4
          · exact Or.inl ⟨h4, hqr⟩
          · simp at h4
        · simp at hm
  · intro q x hx
    have e1 : s1.deref q = some (Cell.erased this c.from_cells_ q
        (if q = this then { c with impl_ := impl } else x)) := by
      rw [h1 q]
      by_cases hq : q = this
      · simp [hq]
      · simp [hq, hx]
    have e2 := h2 q
    unfold Sheet.materialized at e2
    rw [e1] at e2
    simp only [Option.map_some'] at e2
    have e3 := h3 q
    rw [e2] at e3
    simp only [Option.map_some'] at e3
    refine ⟨_, e3, ?_⟩
    intro u hu hne
    rw [Cell.cacheDropped_from]
    have hx' : u ∈ (if q = this then { c with impl_ := impl } else x).from_cells_ := by
      by_cases hq : q = this
      · subst hq
        rw [hc] at hx
        simp only [Option.some.injEq] at hx
        subst hx
        simpa using hu
      · simpa [hq] using hu
    have hx'' : u ∈ (Cell.erased this c.from_cells_ q
        (if q = this then { c with impl_ := impl } else x)).from_cells_ := by
      simp only [Cell.erased]
      split
      · exact (mem_ptrErase _ _ _).mpr ⟨hx', hne⟩
      · exact hx'
    simp only [Cell.linked]
    split
    · exact (mem_ptrInsert _ _ _).mpr (Or.inr hx'')
    · exact hx''
  · intro q hq
    have e2 := h2 q
    have hm : ∃ m, s1.materialized impl.GetReferencedCells q = some m := by
      unfold Sheet.materialized
      cases s1.deref q with
      | some x => exact ⟨x, rfl⟩
      | none => exact ⟨Cell.new, by simp [hq]⟩
    obtain ⟨m, hm⟩ := hm
    rw [hm] at e2
    simp only [Option.map_some'] at e2
    have e3 := h3 q
    rw [e2] at e3
    simp only [Option.map_some'] at e3
    refine ⟨_, e3, ?_⟩
    rw [Cell.cacheDropped_from]
    simp only [Cell.linked, hq, if_true]
    exact (mem_ptrInsert _ _ _).mpr (Or.inl rfl)

theorem Sheet.Inv_empty : Sheet.empty.Inv := by
  have hd : ∀ q, Sheet.empty.deref q = none := fun q => rfl
  refine ⟨?_, ?_⟩
  · rintro u q ⟨c, hc, _⟩
    rw [hd] at hc
    simp at hc
  · intro u hu
    have : ∀ a b, Relation.TransGen Sheet.empty.Recorded a b → False := by
      intro a b hab
      induction hab with
      | single h => obtain ⟨d, hd', _⟩ := h; rw [hd] at hd'; simp at hd'
      | tail _ h _ => obtain ⟨d, hd', _⟩ := h; rw [hd] at hd'; simp at hd'
    exact this u u hu

theorem Sheet.Inv_of_le {s t : Sheet} (hs : s.Inv)
    (hrec : ∀ u v, t.Recorded u v → s.Recorded u v)
    (hcov : ∀ u q, t.References u q → t.Recorded u q) : t.Inv :=
  ⟨hcov, fun u hu => hs.2 u (Relation.TransGen.mono hrec hu)⟩

theorem Sheet.Inv_emplace {s : Sheet} {pos : Position} (hs : s.Inv) (hf : s.find pos = none) :
    (s.emplace pos).Inv := by
  have hd := Sheet.deref_emplace hf
  have hn := Sheet.deref_none_of_find_none hf
  have hrec : ∀ u v, (s.emplace pos).Recorded u v ↔ s.Recorded u v := by
    intro u v
    unfold Sheet.Recorded
    rw [hd v]
    by_cases hv : v = pos
    · subst hv
      simp [hn, Cell.new]
    · simp [hv]
  have href : ∀ u q, (s.emplace pos).References u q ↔ s.References u q := by
    intro u q
    unfold Sheet.References
    rw [hd u]
    by_cases hu : u = pos
    · subst hu
      simp [hn, Cell.new, Cell.GetReferencedCells, Impl.GetReferencedCells]
    · simp [hu]
  exact Sheet.Inv_of_le hs (fun u v h => (hrec u v).mp h)
    (fun u q h => (hrec u q).mpr (hs.1 u q ((href u q).mp h)))

theorem Cell.Set_ok_Inv {s s3 : Sheet} {this : CellPtr} {text : List Char} (hs : s.Inv)
    (h : Cell.Set Sheet.SetCellInner s this text = .ok () s3) : s3.Inv := by
  obtain ⟨c, impl, hc, hi, hsearch, hA, hB, hC⟩ := Cell.Set_ok_cell h
  refine ⟨?_, ?_⟩
  · rintro u q ⟨d, hd, hq⟩
    have h1 := (hA u d hd).1
    by_cases hu : u = this
    · subst hu
      simp only [if_true] at h1
      rw [h1] at hq
      obtain ⟨x3, hx3, hm⟩ := hC q hq
      exact ⟨x3, hx3, hm⟩
    · simp only [hu, if_false] at h1
      cases hsu : s.deref u with
      | none => rw [hsu] at h1; rw [h1] at hq; simp at hq
      | some x =>
        rw [hsu] at h1
        simp only at h1
        rw [h1] at hq
        obtain ⟨y, hy, huy⟩ := hs.1 u q ⟨x, hsu, hq⟩
        obtain ⟨y3, hy3, hm⟩ := hB q y hy
        exact ⟨y3, hy3, hm u huy hu⟩
  · apply acyclic_of_added_edges s.Recorded s3.Recorded this (fun r => r ∈ impl.GetReferencedCells)
    · rintro u v ⟨d, hd, hu⟩
      rcases (hA v d hd).2.2 u hu with h1 | ⟨x, hx, hux⟩
      · exact Or.inr h1
      · exact Or.inl ⟨x, hx, hux⟩
    · exact hs.2
    · exact Cell.IsCyclicDependency_false hsearch

/-- An exception out of `Sheet::SetCell` leaves the sheet as it was or, for a position without
a table entry, with the cell emplaced for it. -/
theorem Sheet.SetCell_raised {s s1 : Sheet} {pos : Position} {text : List Char} {e : Exn}
    (h : s.SetCell pos text = .raised e s1) :
    s1 = s ∨ (s.find pos = none ∧ e ≠ Exn.InvalidPositionException ∧ s1 = s.emplace pos) := by
  rw [Sheet.SetCell_eq] at h
  by_cases hv : pos.IsValid = true
  · simp only [hv, if_true] at h
    obtain ⟨h1, _, h2⟩ := Cell.Set_raised h
    have he : e ≠ Exn.InvalidPositionException := by
      rcases h2 with ⟨rfl, _⟩ | ⟨rfl, _⟩ <;> simp
    by_cases hf : s.find pos = none
    · simp only [hf, if_true] at h1
      exact Or.inr ⟨hf, he, h1⟩
    · simp only [hf, if_false] at h1
      exact Or.inl h1
  · simp only [hv, Bool.false_eq_true, if_false, Res.raised.injEq] at h
    exact Or.inl h.2.symm

theorem Sheet.SetCell_Inv {s s1 : Sheet} {pos : Position} {text : List Char} (hs : s.Inv)
    (h : (s.SetCell pos text).sheet = some s1) : s1.Inv := by
  cases hr : s.SetCell pos text with
  | ok a s2 =>
    rw [hr] at h
    simp only [Res.sheet, Option.some.injEq] at h
    subst h
    rw [Sheet.SetCell_eq] at hr
    by_cases hv : pos.IsValid = true
    · simp only [hv, if_true] at hr
      by_cases hf : s.find pos = none
      · simp only [hf, if_true] at hr
        exact Cell.Set_ok_Inv (Sheet.Inv_emplace hs hf) hr
      · simp only [hf, if_false] at hr
        exact Cell.Set_ok_Inv hs hr
    · simp [hv] at hr
  | raised e s2 =>
    rw [hr] at h
    simp only [Res.sheet, Option.some.injEq] at h
    subst h
    rcases Sheet.SetCell_raised hr with h1 | ⟨hf, _, h1⟩
    · rw [h1]; exact hs
    · rw [h1]; exact Sheet.Inv_emplace hs hf
  | undefined => rw [hr] at h; simp [Res.sheet] at h
  | diverged => rw [hr] at h; simp [Res.sheet] at h

theorem Sheet.ClearCell_Inv {s s1 : Sheet} {pos : Position} (hs : s.Inv)
    (h : (s.ClearCell pos).sheet = some s1) : s1.Inv := by
  unfold Sheet.ClearCell at h
  split at h
  · simp only [Res.sheet, Option.some.injEq] at h
    subst h; exact hs
  · split at h
    · simp only [Res.sheet, Option.some.injEq] at h
      subst h; exact hs
    · rename_i c hc
      have hst := Sheet.deref_store hc c.Clear
      have hd : ∀ q x1, s1.deref q = some x1 →
          ∃ x, s.deref q = some x ∧ x1.from_cells_ = x.from_cells_ ∧
            (x1.GetReferencedCells = if q = pos then [] else x.GetReferencedCells) := by
        intro q x1 hx1
        split at h
        · simp only [Res.sheet, Option.some.injEq] at h
          subst h
          rw [Sheet.deref_reset, hst] at hx1
          by_cases hq : q = pos
          · simp [hq] at hx1
          · simp only [hq, if_false] at hx1
            exact ⟨x1, hx1, rfl, by simp [hq]⟩
        · simp only [Res.sheet, Option.some.injEq] at h
          subst h
          rw [hst] at hx1
          by_cases hq : q = pos
          · subst hq
            simp only [if_true, Option.some.injEq] at hx1
            subst hx1
            exact ⟨c, hc, rfl, by simp [Cell.Clear, Cell.GetReferencedCells,
              Impl.GetReferencedCells]⟩
          · simp only [hq, if_false] at hx1
            exact ⟨x1, hx1, rfl, by simp [hq]⟩
      have hkeep : ∀ q x u, s.deref q = some x → u ∈ x.from_cells_ →
          ∃ x1, s1.deref q = some x1 ∧ u ∈ x1.from_cells_ := by
        intro q x u hx hu
        by_cases hq : q = pos
        · subst hq
          rw [hc] at hx
          simp only [Option.some.injEq] at hx
          subst hx
          have hne : ¬ (!c.Clear.IsReferenced) = true := by
            simp only [Cell.IsReferenced, Cell.Clear, Bool.not_not, List.isEmpty_iff]
            intro he
            rw [he] at hu
            simp at hu
          rw [if_neg hne] at h
          simp only [Res.sheet, Option.some.injEq] at h
          subst h
          rw [hst]
          exact ⟨c.Clear, by simp, hu⟩
        · split at h
          · simp only [Res.sheet, Option.some.injEq] at h
            subst h
            rw [Sheet.deref_reset, hst]
            exact ⟨x, by simp [hq, hx], hu⟩
          · simp only [Res.sheet, Option.some.injEq] at h
            subst h
            rw [hst]
            exact ⟨x, by simp [hq, hx], hu⟩
      apply Sheet.Inv_of_le hs
      · rintro u v ⟨d, hd1, hu⟩
        obtain ⟨x, hx, hfrom, _⟩ := hd v d hd1
        exact ⟨x, hx, hfrom ▸ hu⟩
      · rintro u q ⟨d, hd1, hq⟩
        obtain ⟨x, hx, _, hrefs⟩ := hd u d hd1
        rw [hrefs] at hq
        by_cases hu : u = pos
        · simp [hu] at hq
        · simp only [hu, if_false] at hq
          obtain ⟨y, hy, huy⟩ := hs.1 u q ⟨x, hx, hq⟩
          obtain ⟨y1, hy1, hm⟩ := hkeep q y u hy huy
          exact ⟨y1, hy1, hm⟩

theorem Reachable.Inv {s : Sheet} (h : Reachable s) : s.Inv := by
  induction h with
  | empty => exact Sheet.Inv_empty
  | SetCell pos text _ hstep ih => exact Sheet.SetCell_Inv ih hstep
  | ClearCell pos _ hstep ih => exact Sheet.ClearCell_Inv ih hstep

theorem ptrInsert_of_mem {x : CellPtr} {l : List CellPtr} (h : x ∈ l) : ptrInsert x l = l := by
  simp [ptrInsert, h]

theorem pendingFrom_mono (cur : CellPtr) (vis : List CellPtr)
    (t : List (Position × Option Cell)) :
    pendingFrom (ptrInsert cur vis) t ≤ pendingFrom vis t := by
  induction t with
  | nil => simp [pendingFrom]
  | cons kv t ih =>
    obtain ⟨k, v⟩ := kv
    simp only [pendingFrom]
    by_cases hk : k ∈ vis
    · have hk' : k ∈ ptrInsert cur vis := (mem_ptrInsert _ _ _).mpr (Or.inr hk)
      simp only [hk, hk', if_true]
      omega
    · by_cases hk' : k ∈ ptrInsert cur vis
      · simp only [hk', if_true, hk, if_false]
        omega
      · simp only [hk', hk, if_false]
        omega

theorem pendingFrom_insert (cur : CellPtr) (vis : List CellPtr) (c : Cell) (hcur : cur ∉ vis)
    (t : List (Position × Option Cell)) (hf : tableFind t cur = some (some c)) :
    pendingFrom (ptrInsert cur vis) t + c.from_cells_.length ≤ pendingFrom vis t := by
  induction t with
  | nil => simp [tableFind] at hf
  | cons kv t ih =>
    obtain ⟨k, v⟩ := kv
    simp only [pendingFrom]
    by_cases hk : k = cur
    · subst hk
      simp only [tableFind, if_true, Option.some.injEq] at hf
      subst hf
      have hk' : k ∈ ptrInsert k vis := (mem_ptrInsert _ _ _).mpr (Or.inl rfl)
      have := pendingFrom_mono k vis t
      simp only [hk', if_true, hcur, if_false]
      omega
    · simp only [tableFind, hk, if_false] at hf
      have ih' := ih hf
      have hiff : k ∈ ptrInsert cur vis ↔ k ∈ vis := by
        rw [mem_ptrInsert]
        constructor
        · rintro (h | h)
          · exact absurd h hk
          · exact h
        · exact Or.inr
      by_cases hkv : k ∈ vis
      · have hkv' := hiff.mpr hkv
        simp only [hkv, hkv', if_true]
        omega
      · have hkv' : k ∉ ptrInsert cur vis := fun h => hkv (hiff.mp h)
        simp only [hkv, hkv', if_false]
        omega

theorem stackOrdered_weaken (s : Sheet) (vis vis' : List CellPtr) :
    ∀ (below above above' : List CellPtr),
      stackOrdered s vis above below →
      (∀ y, y ∈ vis ∨ y ∈ above → y ∈ vis' ∨ y ∈ above') →
      (∀ x ∈ below, x ∈ vis' → x ∉ vis →
        ∀ c, s.deref x = some c → ∀ y ∈ c.from_cells_, y ∈ vis' ∨ y ∈ above') →
      stackOrdered s vis' above' below := by
  intro below
  induction below with
  | nil => intro _ _ _ _ _; trivial
  | cons x rest ih =>
    intro above above' h hsub hnew
    obtain ⟨h1, h2⟩ := h
    refine ⟨?_, ?_⟩
    · intro hx c hc y hy
      by_cases hxv : x ∈ vis
      · exact hsub y (h1 hxv c hc y hy)
      · exact hnew x (List.mem_cons_self _ _) hx hxv c hc y hy
    · apply ih (x :: above) (x :: above') h2
      · intro y hy
        rcases hy with hy | hy
        · rcases hsub y (Or.inl hy) with h3 | h3
          · exact Or.inl h3
          · exact Or.inr (List.mem_cons_of_mem _ h3)
        · rcases List.mem_cons.mp hy with rfl | hy
          · exact Or.inr (List.mem_cons_self _ _)
          · rcases hsub y (Or.inr hy) with h3 | h3
            · exact Or.inl h3
            · exact Or.inr (List.mem_cons_of_mem _ h3)
      · intro z hz hzv hzn c hc y hy
        rcases hnew z (List.mem_cons_of_mem _ hz) hzv hzn c hc y hy with h3 | h3
        · exact Or.inl h3
        · exact Or.inr (List.mem_cons_of_mem _ h3)

theorem stackOrdered_push (s : Sheet) (vis : List CellPtr) :
    ∀ (pushed above below : List CellPtr), (∀ x ∈ pushed, x ∉ vis) →
      (∀ above', (∀ y, y ∈ above ∨ y ∈ pushed → y ∈ above') →
        stackOrdered s vis above' below) →
      stackOrdered s vis above (pushed ++ below) := by
  intro pushed
  induction pushed with
  | nil =>
    intro above below _ h
    exact h above (fun y hy => hy.elim id (fun h' => by simp at h'))
  | cons x rest ih =>
    intro above below hp h
    refine ⟨fun hx => absurd hx (hp x (List.mem_cons_self _ _)), ?_⟩
    apply ih (x :: above) below (fun z hz => hp z (List.mem_cons_of_mem _ hz))
    intro above' hsub
    apply h above'
    intro y hy
    rcases hy with hy | hy
    · exact hsub y (Or.inl (List.mem_cons_of_mem _ hy))
    · rcases List.mem_cons.mp hy with rfl | hy
      · exact hsub y (Or.inl (List.mem_cons_self _ _))
      · exact hsub y (Or.inr hy)

theorem Cell.searchLoop_not_diverged (s : Sheet) (referenced : List (Option CellPtr)) :
    ∀ (fuel : Nat) (to_visit visited : List CellPtr),
      to_visit.length + pendingFrom visited s.mTable_ < fuel →
      stackOrdered s visited [] to_visit →
      Cell.searchLoop s referenced fuel to_visit visited ≠ .diverged := by
  intro fuel
  induction fuel with
  | zero => intro tv vis h; omega
  | succ n ih =>
    intro tv vis hfuel hJ
    cases tv with
    | nil => simp [Cell.searchLoop]
    | cons cur rest =>
      unfold Cell.searchLoop
      simp only
      split
      · simp
      · split
        · simp
        · rename_i c hc
          obtain ⟨hJ1, hJ2⟩ := hJ
          simp only [List.length_cons] at hfuel
          by_cases hcur : cur ∈ vis
          · have hall : ∀ y ∈ c.from_cells_, y ∈ vis := by
              intro y hy
              rcases hJ1 hcur c hc y hy with h1 | h1
              · exact h1
              · simp at h1
            have hnil : c.from_cells_.filter (fun cell => decide (cell ∉ ptrInsert cur vis))
                = [] := by
              rw [ptrInsert_of_mem hcur]
              simp only [List.filter_eq_nil_iff, decide_eq_true_eq, not_not]
              exact hall
            rw [hnil, ptrInsert_of_mem hcur]
            apply ih
            · simp only [List.reverse_nil, List.nil_append]
              omega
            · simp only [List.reverse_nil, List.nil_append]
              apply stackOrdered_weaken s vis vis rest [cur] [] hJ2
              · intro y hy
                rcases hy with hy | hy
                · exact Or.inl hy
                · simp only [List.mem_singleton] at hy
                  subst hy
                  exact Or.inl hcur
              · intro x _ hx hnx
                exact absurd hx hnx
          · have hpend := pendingFrom_insert cur vis c hcur s.mTable_
              (Sheet.deref_eq_some.mp hc)
            have hlen : ((c.from_cells_.filter
                (fun cell => decide (cell ∉ ptrInsert cur vis))).reverse ++ rest).length
                ≤ c.from_cells_.length + rest.length := by
              simp only [List.length_append, List.length_reverse]
              have := List.length_filter_le (fun cell => decide (cell ∉ ptrInsert cur vis))
                c.from_cells_
              omega
            apply ih
            · omega
            · apply stackOrdered_push
              · intro x hx
                simp only [List.mem_reverse, List.mem_filter, decide_eq_true_eq] at hx
                exact hx.2
              · intro above' hsub
                apply stackOrdered_weaken s vis (ptrInsert cur vis) rest [cur] above' hJ2
                · intro y hy
                  rcases hy with hy | hy
                  · exact Or.inl ((mem_ptrInsert _ _ _).mpr (Or.inr hy))
                  · simp only [List.mem_singleton] at hy
                    subst hy
                    exact Or.inl ((mem_ptrInsert _ _ _).mpr (Or.inl rfl))
                · intro x _ hx hnx c' hc' y hy
                  rcases (mem_ptrInsert _ _ _).mp hx with rfl | hx
                  · rw [hc] at hc'
                    simp only [Option.some.injEq] at hc'
                    subst hc'
                    by_cases hyv : y ∈ ptrInsert x vis
                    · exact Or.inl hyv
                    · right
                      apply hsub
                      right
                      simp only [List.mem_reverse, List.mem_filter, decide_eq_true_eq]
                      exact ⟨hy, hyv⟩
                  · exact absurd hx hnx

theorem pendingFrom_nil (t : List (Position × Option Cell)) :
    pendingFrom [] t = (t.map (fun kv => match kv.2 with
      | some c => c.from_cells_.length
      | none => 0)).sum := by
  induction t with
  | nil => rfl
  | cons kv t ih =>
    obtain ⟨k, v⟩ := kv
    simp [pendingFrom, ih]

/-- The search of `Cell::IsCyclicDependency` ends within the iterations granted to it, on every
sheet, also where the `from_cells_` links have cycles. -/
theorem Cell.IsCyclicDependency_not_diverged (s : Sheet) (this : CellPtr) (impl : Impl) :
    Cell.IsCyclicDependency s this impl ≠ .diverged := by
  rw [Cell.IsCyclicDependency_eq]
  split
  · simp
  · apply Cell.searchLoop_not_diverged
    · rw [pendingFrom_nil]
      simp only [Sheet.searchFuel, List.length_singleton]
      omega
    · exact ⟨fun h => by simp at h, trivial⟩

/-! ## Evaluation returns on an acyclic sheet -/

theorem Res.Agree.sameContents_of_ok {α : Type} {s s1 : Sheet} {r : Res α} {a : α}
    (h : Res.Agree s r r) (hr : r = .ok a s1) : s1.SameContents s := by
  subst hr
  exact h.2.1

theorem FormulaAST.Execute_returns (cv : Sheet → CellPtr → Res Value) (s : Sheet)
    (hcv : ∀ s0 t p, s0.SameContents t → Res.Agree s0 (cv s0 p) (cv t p)) :
    ∀ (ast : FormulaAST),
      (∀ q ∈ ast.GetCells, q.IsValid = true → (s.deref q).isSome →
        ∀ s0 : Sheet, s0.SameContents s → ∃ v s1, cv s0 q = .ok v s1) →
      ∀ s0 : Sheet, s0.SameContents s → ∃ v s1, FormulaAST.Execute cv ast s0 = .ok v s1 := by
  intro ast
  induction ast with
  | num v => intro _ s0 _; exact ⟨_, _, rfl⟩
  | cell p =>
    intro hq s0 hs0
    unfold FormulaAST.Execute
    by_cases hv : p.IsValid = true
    · simp only [hv, Bool.not_true, Bool.false_eq_true, if_false, Sheet.GetCell,
        Sheet.GetCellPtr_valid hv]
      cases hd : (s0.deref p).isSome with
      | false => exact ⟨_, _, rfl⟩
      | true =>
        simp only [if_true]
        have hlive : (s.deref p).isSome := by rw [← hs0.isSome p]; exact hd
        obtain ⟨v, s1, h1⟩ := hq p (by simp [FormulaAST.GetCells]) hv hlive s0 hs0
        rw [h1]
        exact ⟨_, _, rfl⟩
    · simp only [hv, Bool.not_false, if_true]
      exact ⟨_, _, rfl⟩
  | unary neg e ih =>
    intro hq s0 hs0
    unfold FormulaAST.Execute
    obtain ⟨v, s1, h1⟩ := ih hq s0 hs0
    rw [h1]
    cases v <;> exact ⟨_, _, rfl⟩
  | binary op l r ihl ihr =>
    intro hq s0 hs0
    unfold FormulaAST.Execute
    have hql : ∀ q ∈ l.GetCells, q.IsValid = true → (s.deref q).isSome →
        ∀ s0 : Sheet, s0.SameContents s → ∃ v s1, cv s0 q = .ok v s1 :=
      fun q hm => hq q (by simp [FormulaAST.GetCells, hm])
    have hqr : ∀ q ∈ r.GetCells, q.IsValid = true → (s.deref q).isSome →
        ∀ s0 : Sheet, s0.SameContents s → ∃ v s1, cv s0 q = .ok v s1 :=
      fun q hm => hq q (by simp [FormulaAST.GetCells, hm])
    obtain ⟨v, s1, h1⟩ := ihl hql s0 hs0
    have hs1 : s1.SameContents s :=
      (Res.Agree.sameContents_of_ok
        (FormulaAST.Execute_agree cv hcv l s0 s0 (Sheet.SameContents.refl s0)) h1).trans hs0
    rw [h1]
    cases v with
    | err e => exact ⟨_, _, rfl⟩
    | num a =>
      simp only
      obtain ⟨w, s2, h2⟩ := ihr hqr s1 hs1
      rw [h2]
      cases w <;> exact ⟨_, _, rfl⟩

theorem tableFind_mem_keys {t : List (Position × Option Cell)} {p : Position} {v : Option Cell}
    (h : tableFind t p = some v) : p ∈ t.map Prod.fst := by
  induction t with
  | nil => simp [tableFind] at h
  | cons kv t ih =>
    obtain ⟨k, w⟩ := kv
    by_cases hk : k = p
    · simp [hk]
    · simp only [tableFind, hk, if_false] at h
      simp [ih h]

theorem Sheet.SameContents.references {s0 s : Sheet} (h : s0.SameContents s) {p : CellPtr}
    {c : Cell} (hc : s0.deref p = some c) :
    ∃ d, s.deref p = some d ∧ d.impl_.InvalidateCache = c.impl_.InvalidateCache := by
  have hp := h p
  rw [hc] at hp
  cases hd : s.deref p with
  | none => rw [hd] at hp; simp at hp
  | some d =>
    rw [hd] at hp
    simp only [Option.map_some', Option.some.injEq, Cell.eraseCache, Cell.mk.injEq] at hp
    exact ⟨d, rfl, hp.1.symm⟩

/-- On a sheet without reference cycles, `GetValue` returns for a live cell as soon as the
fuel exceeds the number of table keys not yet on the path that led to the cell. -/
theorem Cell.GetValue_returns (s : Sheet) (hac : ∀ u, ¬ Relation.TransGen s.References u u) :
    ∀ (n : Nat) (seen : List CellPtr) (p : CellPtr) (s0 : Sheet), s0.SameContents s →
      seen.Nodup →
      (∀ x ∈ seen, x ∈ s.mTable_.map Prod.fst ∧ Relation.TransGen s.References x p) →
      s.mTable_.length < seen.length + n → (s.deref p).isSome →
      ∃ v s1, Cell.GetValue n s0 p = .ok v s1 := by
  intro n
  induction n with
  | zero =>
    intro seen p s0 _ hnd hseen hlen _
    exfalso
    have hsub : seen ⊆ s.mTable_.map Prod.fst := fun x hx => (hseen x hx).1
    have := (hnd.subperm hsub).length_le
    simp only [List.length_map] at this
    omega
  | succ n ih =>
    intro seen p s0 hs0 hnd hseen hlen hlive
    have hlive0 : (s0.deref p).isSome := by rw [hs0.isSome p]; exact hlive
    obtain ⟨c, hc⟩ := Option.isSome_iff_exists.mp hlive0
    cases hi : c.impl_ with
    | EmptyImpl =>
      unfold Cell.GetValue
      simp only [hc, hi]
      exact ⟨_, _, rfl⟩
    | TextImpl t v =>
      unfold Cell.GetValue
      simp only [hc, hi]
      exact ⟨_, _, rfl⟩
    | FormulaImpl t f cache =>
      obtain ⟨d, hd, hdi⟩ := hs0.references hc
      have hdrefs : d.GetReferencedCells = Formula.GetReferencedCells f := by
        have := congrArg Impl.GetReferencedCells hdi
        rw [Impl.InvalidateCache_refs, Impl.InvalidateCache_refs, hi] at this
        exact this
      have hpkey : p ∈ s.mTable_.map Prod.fst :=
        tableFind_mem_keys (Sheet.deref_eq_some.mp hd)
      have hpn : p ∉ seen := fun hp => hac p (hseen p hp).2
      have hcell : ∀ q ∈ f.GetCells, q.IsValid = true → (s.deref q).isSome →
          ∀ s0 : Sheet, s0.SameContents s → ∃ v s1, Cell.GetValue n s0 q = .ok v s1 := by
        intro q hq hv hql s0' hs0'
        have hedge : s.References p q :=
          ⟨d, hd, by rw [hdrefs]; exact (Formula.mem_GetReferencedCells f q).mpr ⟨hq, hv⟩⟩
        apply ih (p :: seen) q s0' hs0' (List.nodup_cons.mpr ⟨hpn, hnd⟩)
        · intro x hx
          rcases List.mem_cons.mp hx with rfl | hx
          · exact ⟨hpkey, Relation.TransGen.single hedge⟩
          · exact ⟨(hseen x hx).1, Relation.TransGen.tail (hseen x hx).2 hedge⟩
        · simp only [List.length_cons]
          omega
        · exact hql
      have hE := FormulaAST.Execute_returns (Cell.GetValue n) s (Cell.GetValue_agree n) f hcell
      have hA := FormulaAST.Execute_agree (Cell.GetValue n) (Cell.GetValue_agree n) f
      rw [Cell.GetValue_formula n hc hi]
      obtain ⟨v1, s1, h1⟩ := hE s0 hs0
      cases cache with
      | some w =>
        simp only [Cell.valueOnce, Formula.Evaluate, h1]
        exact ⟨_, _, rfl⟩
      | none =>
        have hs1 : s1.SameContents s :=
          (Res.Agree.sameContents_of_ok (hA s0 s0 (Sheet.SameContents.refl s0)) h1).trans hs0
        obtain ⟨v2, s2, h2⟩ := hE (s1.fillCache p v1)
          ((Sheet.sameContents_fillCache s1 p v1).trans hs1)
        simp only [Cell.valueTwice, Formula.Evaluate, h1, h2]
        exact ⟨_, _, rfl⟩

/-- In a reachable sheet `value()` of a present cell returns a value. -/
theorem Sheet.value_returns {s : Sheet} (h : Reachable s) (p : Position)
    (hp : (s.deref p).isSome) : ∃ v s1, s.value p = .ok v s1 := by
  have hinv := h.Inv
  have hac : ∀ u, ¬ Relation.TransGen s.References u u :=
    fun u hu => hinv.2 u (Relation.TransGen.mono hinv.1 hu)
  apply Cell.GetValue_returns s hac s.valueFuel [] p s (Sheet.SameContents.refl s)
    List.nodup_nil
  · intro x hx; simp at hx
  · simp [Sheet.valueFuel]
  · exact hp

/-- `Cell::Set` is never cut off: its search ends and the inner `SetCell` calls get the empty
text. -/
theorem Cell.Set_not_diverged (s : Sheet) (this : CellPtr) (text : List Char) :
    Cell.Set Sheet.SetCellInner s this text ≠ .diverged := by
  unfold Cell.Set
  split
  · simp
  · rename_i c hc
    split
    · simp
    · rename_i impl hi
      split
      · simp
      · simp
      · rename_i hd
        exact absurd hd (Cell.IsCyclicDependency_not_diverged _ _ _)
      · simp
      · split
        · simp
        · rename_i s2 h2
          obtain ⟨_, _, h3⟩ := Cell.eraseFromReferrers_spec _ _ _ _ h2
          have hthis : (s2.deref this).isSome := by
            rw [h3 this, Sheet.deref_store hc]
            simp
          rcases Cell.linkReferenced_spec this impl.GetReferencedCells s2
            (Impl.GetReferencedCells_valid impl) hthis with ⟨s3, h4, _⟩ | h4
          · rw [h4]
            simp only
            unfold Cell.invalidate
            split
            · simp
            · split
              · split <;> simp
              · simp
          · rw [h4]
            simp

/-- `Sheet::SetCell` returns, throws or has undefined behaviour; it is never cut off. -/
theorem Sheet.SetCell_not_diverged (s : Sheet) (pos : Position) (text : List Char) :
    s.SetCell pos text ≠ .diverged := by
  rw [Sheet.SetCell_eq]
  split
  · exact Cell.Set_not_diverged _ _ _
  · simp

/-! ## `SetCell` on a sheet without destroyed cells -/

theorem Cell.searchLoop_not_undefined (s : Sheet) (referenced : List (Option CellPtr))
    (hs : s.NoDangling) :
    ∀ (fuel : Nat) (to_visit visited : List CellPtr),
      (∀ x ∈ to_visit, (s.deref x).isSome) →
      Cell.searchLoop s referenced fuel to_visit visited ≠ .undefined := by
  intro fuel
  induction fuel with
  | zero => intro tv vis _; simp [Cell.searchLoop]
  | succ n ih =>
    intro tv vis hlive
    cases tv with
    | nil => simp [Cell.searchLoop]
    | cons cur rest =>
      unfold Cell.searchLoop
      simp only
      split
      · simp
      · split
        · rename_i hnone
          have := hlive cur (List.mem_cons_self _ _)
          rw [hnone] at this
          simp at this
        · rename_i c hc
          apply ih
          intro x hx
          rcases List.mem_append.mp hx with hx | hx
          · simp only [List.mem_reverse, List.mem_filter] at hx
            exact hs cur c hc x hx.1
          · exact hlive x (List.mem_cons_of_mem _ hx)

/-- On a sheet that satisfies the invariant and has no destroyed cell, `Cell::Set` rejects a
content that references the cell itself or a position from which the cell is reached along
current references. -/
theorem Cell.Set_rejects_cycle {s : Sheet} {this : CellPtr} {text : List Char} {impl : Impl}
    (hinv : s.Inv) (hnd : s.NoDangling) (hlive : (s.deref this).isSome)
    (hi : Impl.ofText text = some impl)
    (hcyc : ∃ r ∈ impl.GetReferencedCells, Relation.ReflTransGen s.References r this) :
    Cell.Set Sheet.SetCellInner s this text = .raised Exn.CircularDependencyException s := by
  obtain ⟨c, hc⟩ := Option.isSome_iff_exists.mp hlive
  obtain ⟨r, hr, hreach⟩ := hcyc
  have hreach' : Relation.ReflTransGen s.Recorded r this :=
    Relation.ReflTransGen.mono hinv.1 hreach
  have hsearch : Cell.IsCyclicDependency s this impl = .ok true := by
    cases hres : Cell.IsCyclicDependency s this impl with
    | ok b =>
      cases b with
      | true => rfl
      | false => exact absurd hreach' (Cell.IsCyclicDependency_false hres r hr)
    | raised e => exact absurd hres (Cell.IsCyclicDependency_not_raised _ _ _ _)
    | diverged => exact absurd hres (Cell.IsCyclicDependency_not_diverged _ _ _)
    | undefined =>
      exfalso
      rw [Cell.IsCyclicDependency_eq] at hres
      split at hres
      · simp at hres
      · refine Cell.searchLoop_not_undefined s _ hnd _ _ _ ?_ hres
        intro x hx
        simp only [List.mem_singleton] at hx
        subst hx
        exact hlive
  unfold Cell.Set
  simp only [hc, hi, hsearch]

/-- On a sheet that satisfies the invariant and has no destroyed cell, `Cell::Set` with a text
that is not a formula returns. -/
theorem Cell.Set_text_returns {s : Sheet} {this : CellPtr} {text : List Char}
    (hinv : s.Inv) (hnd : s.NoDangling) (hlive : (s.deref this).isSome)
    (hnf : ¬ (text.head? = some FORMULA_SIGN ∧ 1 < text.length)) :
    ∃ s1, Cell.Set Sheet.SetCellInner s this text = .ok () s1 := by
  obtain ⟨c, hc⟩ := Option.isSome_iff_exists.mp hlive
  have hi : ∃ impl, Impl.ofText text = some impl ∧ impl.GetReferencedCells = [] := by
    cases text with
    | nil => exact ⟨Impl.EmptyImpl, rfl, rfl⟩
    | cons ch rest => exact ⟨_, Impl.ofText_text (by simp) hnf, rfl⟩
  obtain ⟨impl, hi, hrefs⟩ := hi
  have hsearch : Cell.IsCyclicDependency s this impl = .ok false := by
    simp [Cell.IsCyclicDependency, hrefs]
  have hself : this ∉ c.from_cells_ :=
    fun h => hinv.2 this (Relation.TransGen.single ⟨c, hc, h⟩)
  have hst := Sheet.deref_store hc { c with impl_ := impl }
  have herase : ∀ (l : List CellPtr) (s0 : Sheet), this ∉ l →
      (∀ q ∈ l, (s0.deref q).isSome) → ∃ s1, Cell.eraseFromReferrers this s0 l = some s1 := by
    intro l
    induction l with
    | nil => intro s0 _ _; exact ⟨s0, rfl⟩
    | cons frm rest ih =>
      intro s0 hn hl
      have hne : ¬ frm = this := fun e => hn (e ▸ List.mem_cons_self _ _)
      obtain ⟨d, hd⟩ := Option.isSome_iff_exists.mp (hl frm (List.mem_cons_self _ _))
      unfold Cell.eraseFromReferrers
      simp only [hne, if_false, hd]
      apply ih _ (fun h => hn (List.mem_cons_of_mem _ h))
      intro q hq
      rw [Sheet.deref_store hd]
      by_cases e : q = frm
      · simp [e]
      · simpa [e] using hl q (List.mem_cons_of_mem _ hq)
  obtain ⟨s1, h1⟩ := herase c.from_cells_ (s.store this { c with impl_ := impl }) hself (by
    intro q hq
    rw [hst]
    by_cases e : q = this
    · simp [e]
    · simpa [e] using hnd this c hc q hq)
  obtain ⟨_, _, h1spec⟩ := Cell.eraseFromReferrers_spec _ _ _ _ h1
  have hinval : ∀ (l : List CellPtr) (s0 : Sheet),
      (∀ q ∈ l, (s0.deref q).isSome) → ∃ s2, Cell.invalidateReferrers s0 l = some s2 := by
    intro l
    induction l with
    | nil => intro s0 _; exact ⟨s0, rfl⟩
    | cons frm rest ih =>
      intro s0 hl
      obtain ⟨d, hd⟩ := Option.isSome_iff_exists.mp (hl frm (List.mem_cons_self _ _))
      unfold Cell.invalidateReferrers
      simp only [hd]
      apply ih
      intro q hq
      rw [Sheet.deref_store hd]
      by_cases e : q = frm
      · simp [e]
      · simpa [e] using hl q (List.mem_cons_of_mem _ hq)
  have hlive1 : ∀ q, (s.deref q).isSome → (s1.deref q).isSome := by
    intro q hq
    rw [h1spec q, hst]
    by_cases e : q = this
    · simp [e]
    · simpa [e] using hq
  obtain ⟨c1, hc1⟩ := Option.isSome_iff_exists.mp (hlive1 this hlive)
  have hc1from : ∀ q ∈ c1.from_cells_, (s.deref q).isSome := by
    intro q hq
    have e1 := h1spec this
    rw [hst, hc1] at e1
    simp only [if_true, Option.map_some', Option.some.injEq] at e1
    rw [e1] at hq
    simp only [Cell.erased] at hq
    exact hnd this c hc q (mem_of_mem_ite_ptrErase hq)
  unfold Cell.Set
  simp only [hc, hi, hsearch, h1, hrefs, Cell.linkReferenced]
  unfold Cell.invalidate
  simp only [hc1]
  split
  · have hst1 := Sheet.deref_store hc1 { c1 with impl_ := c1.impl_.InvalidateCache }
    obtain ⟨s2, h2⟩ := hinval c1.from_cells_
      (s1.store this { c1 with impl_ := c1.impl_.InvalidateCache }) (by
        intro q hq
        rw [hst1]
        by_cases e : q = this
        · simp [e]
        · simpa [e] using hlive1 q (hc1from q hq))
    rw [h2]
    exact ⟨s2, rfl⟩
  · exact ⟨s1, rfl⟩

/-! ## Rejected positions, self-reference, repeated clear -/

theorem tableAssign_idem (t : List (Position × Option Cell)) (p : Position) (w : Option Cell) :
    tableAssign (tableAssign t p w) p w = tableAssign t p w := by
  induction t with
  | nil => rfl
  | cons kv t ih =>
    obtain ⟨k, v⟩ := kv
    by_cases hk : k = p
    · simp [tableAssign, hk]
    · simp [tableAssign, hk, ih]

/-- A content that references the cell itself is rejected by `Cell::Set` on any sheet: the
search meets the cell first. -/
theorem Cell.Set_rejects_self {s : Sheet} {this : CellPtr} {text : List Char} {impl : Impl}
    (hlive : (s.deref this).isSome) (hi : Impl.ofText text = some impl)
    (hself : this ∈ impl.GetReferencedCells) :
    Cell.Set Sheet.SetCellInner s this text = .raised Exn.CircularDependencyException s := by
  obtain ⟨c, hc⟩ := Option.isSome_iff_exists.mp hlive
  have hne : impl.GetReferencedCells.isEmpty = false := by
    cases hl : impl.GetReferencedCells with
    | nil => rw [hl] at hself; simp at hself
    | cons a t => rfl
  have hmem : some this ∈ impl.GetReferencedCells.map
      (fun pos => if (s.deref pos).isSome then some pos else none) := by
    simp only [List.mem_map]
    exact ⟨this, hself, by simp [hlive]⟩
  have hsearch : Cell.IsCyclicDependency s this impl = .ok true := by
    rw [Cell.IsCyclicDependency_eq]
    simp only [hne, Bool.false_eq_true, if_false, Sheet.searchFuel]
    unfold Cell.searchLoop
    simp only [hmem, if_true]
  unfold Cell.Set
  simp only [hc, hi, hsearch]

/-- `Sheet::SetCell` rejects a formula that references its own position, wherever the key of
the position is absent or owns a cell. -/
theorem Sheet.SetCell_rejects_self {s : Sheet} {pos : Position} {text : List Char} {impl : Impl}
    (hv : pos.IsValid = true) (hslot : s.find pos ≠ some none)
    (hi : Impl.ofText text = some impl) (hself : pos ∈ impl.GetReferencedCells) :
    ∃ s1, s.SetCell pos text = .raised Exn.CircularDependencyException s1 := by
  rw [Sheet.SetCell_eq]
  simp only [hv, if_true]
  by_cases hf : s.find pos = none
  · simp only [hf, if_true]
    refine ⟨_, Cell.Set_rejects_self ?_ hi hself⟩
    rw [Sheet.deref_emplace hf]
    simp
  · simp only [hf, if_false]
    refine ⟨_, Cell.Set_rejects_self ?_ hi hself⟩
    cases hfp : s.find pos with
    | none => exact absurd hfp hf
    | some v =>
      cases v with
      | none => exact absurd hfp hslot
      | some c => simp [Sheet.deref, hfp]

/-! ## The search answers `true` only for a referenced cell that reaches the start -/

theorem tableAssign_keys (t : List (Position × Option Cell)) (p : Position) (w : Option Cell) :
    (tableAssign t p w).map Prod.fst = t.map Prod.fst := by
  induction t with
  | nil => rfl
  | cons kv t ih =>
    obtain ⟨k, v⟩ := kv
    by_cases hk : k = p
    · simp [tableAssign, hk]
    · simp [tableAssign, hk, ih]

theorem Sheet.keys_store (s : Sheet) (p : CellPtr) (c : Cell) : (s.store p c).keys = s.keys :=
  tableAssign_keys _ _ _

theorem Sheet.keys_reset (s : Sheet) (p : CellPtr) : (s.reset p).keys = s.keys :=
  tableAssign_keys _ _ _

theorem tableFind_none_not_mem {t : List (Position × Option Cell)} {p : Position}
    (h : tableFind t p = none) : p ∉ t.map Prod.fst := by
  induction t with
  | nil => simp
  | cons kv t ih =>
    obtain ⟨k, v⟩ := kv
    by_cases hk : k = p
    · simp [tableFind, hk] at h
    · simp only [tableFind, hk, if_false] at h
      simp only [List.map_cons, List.mem_cons, not_or]
      exact ⟨fun e => hk e.symm, ih h⟩

theorem Sheet.WellFormed_of_keys {s s1 : Sheet} (h : s1.keys = s.keys) (hs : s.WellFormed) :
    s1.WellFormed := by
  unfold Sheet.WellFormed
  rw [h]
  exact hs

theorem Sheet.WellFormed_emplace {s : Sheet} {pos : Position} (hs : s.WellFormed)
    (hf : s.find pos = none) (hv : pos.IsValid = true) : (s.emplace pos).WellFormed := by
  have hk : (s.emplace pos).keys = s.keys ++ [pos] := by
    simp [Sheet.keys, Sheet.emplace]
  unfold Sheet.WellFormed
  rw [hk]
  refine ⟨?_, ?_⟩
  · rw [List.nodup_append]
    refine ⟨hs.1, List.nodup_singleton _, ?_⟩
    intro a ha hb
    simp only [List.mem_singleton] at hb
    subst hb
    exact tableFind_none_not_mem hf ha
  · intro k hk'
    rcases List.mem_append.mp hk' with h1 | h1
    · exact hs.2 k h1
    · simp only [List.mem_singleton] at h1
      subst h1
      exact hv

theorem Cell.eraseFromReferrers_keys (this : CellPtr) (l : List CellPtr) :
    ∀ (s s1 : Sheet), Cell.eraseFromReferrers this s l = some s1 → s1.keys = s.keys := by
  induction l with
  | nil =>
    intro s s1 h
    simp only [Cell.eraseFromReferrers, Option.some.injEq] at h
    rw [h]
  | cons frm rest ih =>
    intro s s1 h
    unfold Cell.eraseFromReferrers at h
    split at h
    · simp at h
    · split at h
      · simp at h
      · rw [ih _ _ h, Sheet.keys_store]

theorem Cell.invalidateReferrers_keys (l : List CellPtr) :
    ∀ (s s1 : Sheet), Cell.invalidateReferrers s l = some s1 → s1.keys = s.keys := by
  induction l with
  | nil =>
    intro s s1 h
    simp only [Cell.invalidateReferrers, Option.some.injEq] at h
    rw [h]
  | cons frm rest ih =>
    intro s s1 h
    unfold Cell.invalidateReferrers at h
    split at h
    · simp at h
    · rw [ih _ _ h, Sheet.keys_store]

theorem Cell.link_keys {s s1 : Sheet} {this cell : CellPtr}
    (h : Cell.link s this cell = some s1) : s1.keys = s.keys := by
  unfold Cell.link at h
  split at h
  · simp at h
  · simp only at h
    split at h
    · simp at h
    · simp only [Option.some.injEq] at h
      rw [← h, Sheet.keys_store, Sheet.keys_store]

theorem Cell.invalidate_keys {s s1 : Sheet} {this : CellPtr}
    (h : Cell.invalidate s this = .ok () s1) : s1.keys = s.keys := by
  unfold Cell.invalidate at h
  split at h
  · simp at h
  · split at h
    · split at h
      · simp at h
      · rename_i s2 h2
        simp only [Res.ok.injEq, true_and] at h
        rw [← h, Cell.invalidateReferrers_keys _ _ _ h2, Sheet.keys_store]
    · simp only [Res.ok.injEq, true_and] at h
      rw [h]

theorem Sheet.SetCellInner_nil_WellFormed {s s1 : Sheet} {pos : Position}
    (hv : pos.IsValid = true) (hs : s.WellFormed)
    (h : Sheet.SetCellInner s pos [] = .ok () s1) : s1.WellFormed := by
  have hset : ∀ (s0 s2 : Sheet), Cell.Set (fun _ _ _ => Res.diverged) s0 pos [] = .ok () s2 →
      s2.keys = s0.keys := by
    intro s0 s2 h0
    rw [Cell.Set_nil] at h0
    split at h0
    · simp at h0
    · split at h0
      · simp at h0
      · rename_i s3 h3
        rw [Cell.invalidate_keys h0, Cell.eraseFromReferrers_keys _ _ _ _ h3, Sheet.keys_store]
  unfold Sheet.SetCellInner Sheet.SetCellVia at h
  simp only [hv, Bool.not_true, Bool.false_eq_true, if_false] at h
  cases hf : s.find pos with
  | none =>
    rw [hf] at h
    exact Sheet.WellFormed_of_keys (hset _ _ h) (Sheet.WellFormed_emplace hs hf hv)
  | some v =>
    rw [hf] at h
    exact Sheet.WellFormed_of_keys (hset _ _ h) hs

theorem Cell.linkReferenced_WellFormed (this : CellPtr) (refs : List Position) :
    ∀ (s s1 : Sheet), (∀ pos ∈ refs, pos.IsValid = true) → s.WellFormed →
      Cell.linkReferenced Sheet.SetCellInner this s refs = .ok () s1 → s1.WellFormed := by
  induction refs with
  | nil =>
    intro s s1 _ hs h
    simp only [Cell.linkReferenced, Res.ok.injEq, true_and] at h
    rw [← h]
    exact hs
  | cons pos rest ih =>
    intro s s1 hv hs h
    have hvp : pos.IsValid = true := hv pos (List.mem_cons_self _ _)
    have hvr : ∀ p ∈ rest, p.IsValid = true := fun p hp => hv p (List.mem_cons_of_mem _ hp)
    unfold Cell.linkReferenced at h
    rw [Sheet.GetCellPtr_valid hvp] at h
    cases hpos : (s.deref pos).isSome with
    | true =>
      simp only [hpos, if_true] at h
      cases hl : Cell.link s this pos with
      | none => rw [hl] at h; simp at h
      | some s2 =>
        rw [hl] at h
        exact ih s2 s1 hvr (Sheet.WellFormed_of_keys (Cell.link_keys hl) hs) h
    | false =>
      simp only [hpos, Bool.false_eq_true, if_false] at h
      cases h0 : Sheet.SetCellInner s pos [] with
      | ok a s0 =>
        rw [h0] at h
        simp only at h
        have hs0 := Sheet.SetCellInner_nil_WellFormed hvp hs h0
        rw [Sheet.GetCellPtr_valid hvp] at h
        cases hp0 : (s0.deref pos).isSome with
        | false => simp [hp0] at h
        | true =>
          simp only [hp0, if_true] at h
          cases hl : Cell.link s0 this pos with
          | none => rw [hl] at h; simp at h
          | some s2 =>
            rw [hl] at h
            exact ih s2 s1 hvr (Sheet.WellFormed_of_keys (Cell.link_keys hl) hs0) h
      | raised e s0 => rw [h0] at h; simp at h
      | undefined => rw [h0] at h; simp at h
      | diverged => rw [h0] at h; simp at h

theorem Cell.Set_WellFormed {s s1 : Sheet} {this : CellPtr} {text : List Char}
    (hs : s.WellFormed) (h : Cell.Set Sheet.SetCellInner s this text = .ok () s1) :
    s1.WellFormed := by
  unfold Cell.Set at h
  split at h
  · simp at h
  · split at h
    · simp at h
    · rename_i impl hi
      split at h
      · simp at h
      · simp at h
      · simp at h
      · simp at h
      · split at h
        · simp at h
        · rename_i s2 h2
          have hs2 : s2.WellFormed := Sheet.WellFormed_of_keys
            (by rw [Cell.eraseFromReferrers_keys _ _ _ _ h2, Sheet.keys_store]) hs
          cases hl : Cell.linkReferenced Sheet.SetCellInner this s2 impl.GetReferencedCells with
          | ok a s3 =>
            rw [hl] at h
            simp only at h
            exact Sheet.WellFormed_of_keys (Cell.invalidate_keys h)
              (Cell.linkReferenced_WellFormed _ _ _ _ (Impl.GetReferencedCells_valid impl) hs2
                hl)
          | raised e s3 => rw [hl] at h; simp at h
          | undefined => rw [hl] at h; simp at h
          | diverged => rw [hl] at h; simp at h

theorem Sheet.SetCell_WellFormed {s s1 : Sheet} {pos : Position} {text : List Char}
    (hs : s.WellFormed) (h : (s.SetCell pos text).sheet = some s1) : s1.WellFormed := by
  by_cases hv : pos.IsValid = true
  · have hs0 : (if s.find pos = none then s.emplace pos else s).WellFormed := by
      by_cases hf : s.find pos = none
      · simp only [hf, if_true]
        exact Sheet.WellFormed_emplace hs hf hv
      · simp only [hf, if_false]
        exact hs
    rw [Sheet.SetCell_eq] at h
    simp only [hv, if_true] at h
    cases hr : Cell.Set Sheet.SetCellInner (if s.find pos = none then s.emplace pos else s)
        pos text with
    | ok a s2 =>
      rw [hr] at h
      simp only [Res.sheet, Option.some.injEq] at h
      subst h
      exact Cell.Set_WellFormed hs0 hr
    | raised e s2 =>
      rw [hr] at h
      simp only [Res.sheet, Option.some.injEq] at h
      subst h
      rw [(Cell.Set_raised hr).1]
      exact hs0
    | undefined => rw [hr] at h; simp [Res.sheet] at h
    | diverged => rw [hr] at h; simp [Res.sheet] at h
  · rw [Sheet.SetCell_eq] at h
    simp only [hv, Bool.false_eq_true, if_false, Res.sheet, Option.some.injEq] at h
    subst h
    exact hs

theorem Sheet.ClearCell_WellFormed {s s1 : Sheet} {pos : Position} (hs : s.WellFormed)
    (h : (s.ClearCell pos).sheet = some s1) : s1.WellFormed := by
  unfold Sheet.ClearCell at h
  split at h
  · simp only [Res.sheet, Option.some.injEq] at h
    subst h; exact hs
  · split at h
    · simp only [Res.sheet, Option.some.injEq] at h
      subst h; exact hs
    · split at h
      · simp only [Res.sheet, Option.some.injEq] at h
        subst h
        exact Sheet.WellFormed_of_keys (by rw [Sheet.keys_reset, Sheet.keys_store]) hs
      · simp only [Res.sheet, Option.some.injEq] at h
        subst h
        exact Sheet.WellFormed_of_keys (Sheet.keys_store _ _ _) hs

/-- Every reachable sheet has distinct, valid keys. -/
theorem Reachable.WellFormed {s : Sheet} (h : Reachable s) : s.WellFormed := by
  induction h with
  | empty => exact ⟨List.nodup_nil, fun k hk => by simp [Sheet.keys, Sheet.empty] at hk⟩
  | SetCell pos text _ hstep ih => exact Sheet.SetCell_WellFormed ih hstep
  | ClearCell pos _ hstep ih => exact Sheet.ClearCell_WellFormed ih hstep

/-! ## The printable size as a maximum -/

theorem foldl_max_eq (l : List Int) :
    ∀ (acc : Int), l ≠ [] → l.foldl max acc = max acc (maxOrZero l) := by
  induction l with
  | nil => intro acc h; exact absurd rfl h
  | cons a t ih =>
    intro acc _
    cases t with
    | nil => rfl
    | cons b t =>
      rw [List.foldl_cons, ih (max acc a) (List.cons_ne_nil _ _)]
      show max (max acc a) (maxOrZero (b :: t)) = max acc (max a (maxOrZero (b :: t)))
      exact max_assoc _ _ _

theorem maxOrZero_nonneg (l : List Int) (h : ∀ x ∈ l, 0 ≤ x) : 0 ≤ maxOrZero l := by
  induction l with
  | nil => exact le_refl _
  | cons a t ih =>
    cases t with
    | nil => exact h a (List.mem_cons_self _ _)
    | cons b t =>
      show 0 ≤ max a (maxOrZero (b :: t))
      exact le_max_of_le_left (h a (List.mem_cons_self _ _))

theorem foldl_max_zero (l : List Int) (h : ∀ x ∈ l, 0 ≤ x) : l.foldl max 0 = maxOrZero l := by
  cases l with
  | nil => rfl
  | cons a t =>
    rw [foldl_max_eq _ _ (List.cons_ne_nil _ _)]
    exact max_eq_right (maxOrZero_nonneg _ h)

/-- The pass of `GetPrintableSize` only looks at the cells with non-empty text, and takes
the running maximum of `row + 1` and of `col + 1`. -/
theorem Sheet.GetPrintableSize_fold (t : List (Position × Option Cell)) :
    ∀ (acc : Size),
      t.foldl (fun result kv =>
        match kv.2 with
        | none => result
        | some cell =>
          if cell.GetText.isEmpty then result
          else
            ({ rows := if result.rows ≤ kv.1.row then kv.1.row + 1 else result.rows
               cols := if result.cols ≤ kv.1.col then kv.1.col + 1 else result.cols } : Size))
        acc =
      ⟨((t.filterMap (fun kv =>
          match kv.2 with
          | none => none
          | some cell => if cell.GetText.isEmpty then none else some kv.1)).map
            (fun p => p.row + 1)).foldl max acc.rows,
        ((t.filterMap (fun kv =>
          match kv.2 with
          | none => none
          | some cell => if cell.GetText.isEmpty then none else some kv.1)).map
            (fun p => p.col + 1)).foldl max acc.cols⟩ := by
  induction t with
  | nil => intro acc; rfl
  | cons kv t ih =>
    intro acc
    obtain ⟨k, v⟩ := kv
    rw [List.foldl_cons, ih]
    cases v with
    | none => rfl
    | some c =>
      by_cases he : c.GetText.isEmpty = true
      · simp only [List.filterMap_cons, he, if_true]
      · have hr : (if acc.rows ≤ k.row then k.row + 1 else acc.rows) = max acc.rows (k.row + 1) := by
          split
          · rw [max_eq_right]; omega
          · rw [max_eq_left]; omega
        have hc : (if acc.cols ≤ k.col then k.col + 1 else acc.cols) = max acc.cols (k.col + 1) := by
          split
          · rw [max_eq_right]; omega
          · rw [max_eq_left]; omega
        simp only [List.filterMap_cons, he, Bool.false_eq_true, if_false, List.map_cons,
          List.foldl_cons, hr, hc]

theorem Sheet.mem_printedCells_keys {s : Sheet} {p : Position} (h : p ∈ s.printedCells) :
    p ∈ s.keys := by
  unfold Sheet.printedCells at h
  rw [List.mem_filterMap] at h
  obtain ⟨kv, hkv, hp⟩ := h
  obtain ⟨k, v⟩ := kv
  cases v with
  | none => simp at hp
  | some c =>
    simp only at hp
    split at hp
    · simp at hp
    · simp only [Option.some.injEq] at hp
      subst hp
      exact List.mem_map.mpr ⟨_, hkv, rfl⟩

theorem tableFind_of_mem_nodup (t : List (Position × Option Cell)) (p : Position)
    (v : Option Cell) (hn : (t.map Prod.fst).Nodup) (hm : (p, v) ∈ t) :
    tableFind t p = some v := by
  induction t with
  | nil => simp at hm
  | cons kv t ih =>
    obtain ⟨k, w⟩ := kv
    rw [List.map_cons, List.nodup_cons] at hn
    rcases List.mem_cons.mp hm with h1 | h1
    · simp only [Prod.mk.injEq] at h1
      simp [tableFind, h1.1, h1.2]
    · have hk : k ≠ p := by
        intro e
        apply hn.1
        rw [e]
        exact List.mem_map.mpr ⟨_, h1, rfl⟩
      simp only [tableFind, hk, if_false]
      exact ih hn.2 h1

theorem tableFind_mem (t : List (Position × Option Cell)) (p : Position) (v : Option Cell)
    (h : tableFind t p = some v) : (p, v) ∈ t := by
  induction t with
  | nil => simp [tableFind] at h
  | cons kv t ih =>
    obtain ⟨k, w⟩ := kv
    by_cases hk : k = p
    · simp only [tableFind, hk, if_true, Option.some.injEq] at h
      rw [hk, h]
      exact List.mem_cons_self _ _
    · simp only [tableFind, hk, if_false] at h
      exact List.mem_cons_of_mem _ (ih h)

/-- On a table with distinct keys the printed cells are the positions at which the sheet
holds a cell with non-empty text. -/
theorem Sheet.mem_printedCells {s : Sheet} (hs : s.WellFormed) (p : Position) :
    p ∈ s.printedCells ↔ ∃ c, s.deref p = some c ∧ c.GetText ≠ [] := by
  unfold Sheet.printedCells
  rw [List.mem_filterMap]
  constructor
  · rintro ⟨⟨k, v⟩, hkv, hp⟩
    cases v with
    | none => simp at hp
    | some c =>
      simp only at hp
      split at hp
      · simp at hp
      · rename_i he
        simp only [Option.some.injEq] at hp
        subst hp
        refine ⟨c, ?_, ?_⟩
        · rw [Sheet.deref_eq_some]
          exact tableFind_of_mem_nodup _ _ _ hs.1 hkv
        · intro e
          apply he
          rw [e]
          rfl
  · rintro ⟨c, hc, hne⟩
    rw [Sheet.deref_eq_some] at hc
    refine ⟨(p, some c), tableFind_mem _ _ _ hc, ?_⟩
    have he : c.GetText.isEmpty = false := by
      cases hg : c.GetText with
      | nil => exact absurd hg hne
      | cons a t => rfl
    simp [he]

theorem le_maxOrZero (l : List Int) : ∀ x ∈ l, x ≤ maxOrZero l := by
  induction l with
  | nil => intro x hx; simp at hx
  | cons a t ih =>
    intro x hx
    cases t with
    | nil =>
      simp only [List.mem_singleton] at hx
      rw [hx]
      exact le_refl _
    | cons b t =>
      show x ≤ max a (maxOrZero (b :: t))
      rcases List.mem_cons.mp hx with h1 | h1
      · rw [h1]; exact le_max_left _ _
      · exact le_trans (ih x h1) (le_max_right _ _)

theorem maxOrZero_mem (l : List Int) (h : l ≠ []) : maxOrZero l ∈ l := by
  induction l with
  | nil => exact absurd rfl h
  | cons a t ih =>
    cases t with
    | nil => exact List.mem_cons_self _ _
    | cons b t =>
      show max a (maxOrZero (b :: t)) ∈ a :: b :: t
      rcases max_choice a (maxOrZero (b :: t)) with h1 | h1
      · rw [h1]; exact List.mem_cons_self _ _
      · rw [h1]; exact List.mem_cons_of_mem _ (ih (List.cons_ne_nil _ _))

/-- On a table whose keys are valid positions, the pass of `GetPrintableSize` computes the
size the spec describes. -/
theorem Sheet.GetPrintableSize_eq {s : Sheet} (hs : s.WellFormed) :
    s.GetPrintableSize = s.printableSizeSpec := by
  have hnn : ∀ p ∈ s.printedCells, 0 ≤ p.row ∧ 0 ≤ p.col := by
    intro p hp
    have hv := hs.2 p (Sheet.mem_printedCells_keys hp)
    simp only [Position.IsValid, Bool.and_eq_true, decide_eq_true_eq] at hv
    omega
  unfold Sheet.GetPrintableSize Sheet.printableSizeSpec
  rw [Sheet.GetPrintableSize_fold]
  show Size.mk (List.foldl max 0 (s.printedCells.map (fun p => p.row + 1)))
      (List.foldl max 0 (s.printedCells.map (fun p => p.col + 1))) = _
  rw [foldl_max_zero, foldl_max_zero]
  · intro x hx
    obtain ⟨p, hp, rfl⟩ := List.mem_map.mp hx
    have := (hnn p hp).2
    omega
  · intro x hx
    obtain ⟨p, hp, rfl⟩ := List.mem_map.mp hx
    have := (hnn p hp).1
    omega

/-! ## Text contents -/

/-- After a `SetCell(p, t)` that returns, with `t` non-empty and not a formula, the text of
the cell is `t` and its value is `t` without one leading escape sign. -/
theorem Sheet.SetCell_text_value {s s1 : Sheet} {p : Position} {t : List Char} (fuel : Nat)
    (hne : t ≠ []) (hnf : ¬ (t.head? = some FORMULA_SIGN ∧ 1 < t.length))
    (h : s.SetCell p t = .ok () s1) :
    s1.text p = some t ∧
      Cell.GetValue (fuel + 1) s1 p
        = .ok (.str (if t.head? = some ESCAPE_SIGN then t.drop 1 else t)) s1 := by
  rw [Sheet.SetCell_eq] at h
  by_cases hv : p.IsValid = true
  · simp only [hv, if_true] at h
    obtain ⟨c3, hc3, hi⟩ := Cell.Set_ok_impl h
    rw [Impl.ofText_text hne hnf] at hi
    simp only [Option.some.injEq] at hi
    refine ⟨?_, ?_⟩
    · simp [Sheet.text, hc3, Cell.GetText, ← hi, Impl.GetText]
    · unfold Cell.GetValue
      simp only [hc3, ← hi]
  · simp [hv] at h

theorem Sheet.NoDangling_emplace {s : Sheet} {pos : Position} (hs : s.NoDangling)
    (hf : s.find pos = none) : (s.emplace pos).NoDangling := by
  intro v d hd u hu
  rw [Sheet.deref_emplace hf] at hd
  rw [Sheet.deref_emplace hf]
  by_cases hv : v = pos
  · simp only [hv, if_true, Option.some.injEq] at hd
    subst hd
    simp [Cell.new] at hu
  · simp only [hv, if_false] at hd
    have := hs v d hd u hu
    by_cases hu' : u = pos
    · simp [hu']
    · simpa [hu'] using this

theorem Sheet.isSome_deref_of_slot {s : Sheet} {pos : Position} (hslot : s.find pos ≠ some none) :
    ((if s.find pos = none then s.emplace pos else s).deref pos).isSome = true := by
  by_cases hf : s.find pos = none
  · simp only [hf, if_true]
    rw [Sheet.deref_emplace hf]
    simp
  · simp only [hf, if_false]
    cases hfp : s.find pos with
    | none => exact absurd hfp hf
    | some v =>
      cases v with
      | none => exact absurd hfp hslot
      | some c => simp [Sheet.deref, hfp]

/-- On a sheet that satisfies the invariant and has no destroyed cell, `SetCell` with a text
that is not a formula returns wherever the key of the position is absent or owns a cell. -/
theorem Sheet.SetCell_text_returns {s : Sheet} {pos : Position} {text : List Char}
    (hinv : s.Inv) (hnd : s.NoDangling) (hv : pos.IsValid = true)
    (hslot : s.find pos ≠ some none)
    (hnf : ¬ (text.head? = some FORMULA_SIGN ∧ 1 < text.length)) :
    ∃ s1, s.SetCell pos text = .ok () s1 := by
  rw [Sheet.SetCell_eq]
  simp only [hv, if_true]
  have hlive := Sheet.isSome_deref_of_slot hslot
  by_cases hf : s.find pos = none
  · simp only [hf, if_true] at hlive ⊢
    exact Cell.Set_text_returns (Sheet.Inv_emplace hinv hf) (Sheet.NoDangling_emplace hnd hf)
      hlive hnf
  · simp only [hf, if_false] at hlive ⊢
    exact Cell.Set_text_returns hinv hnd hlive hnf

/-! ## The first invalid reference decides the value unless an earlier operand fails -/

set_option maxRecDepth 100000 in
/-- C1, the code at the failing input: after `set_cell(A1,"1"); clear_cell(A1)` the key `A1`
holds a null pointer, and `set_cell(A1,"=A1")` calls `Cell::Set` through it: undefined
behaviour, where the claim has `CircularDependencyException`. -/
theorem self_reference_on_cleared_slot_undefined :
    Sheet.empty.run [.set A1 "1", .clear A1] = some ⟨[(A1, none)]⟩ ∧
      (Sheet.mk [(A1, none)]).SetCell A1 "=A1".toList = .undefined := by
  decide!

set_option maxRecDepth 100000 in
/-- C2, the code at the failing input: after `set_cell(A1,"=B1"); set_cell(A1,"5")` no cell
references anything, yet `B1` still records `A1` in `from_cells_` and `set_cell(B1,"=A1")`
raises `CircularDependencyException`. -/
theorem stale_edge_raises_circular :
    (Sheet.empty.run [.set A1 "=B1", .set A1 "5"]).map
        (fun s => (s.allReferenced, (s.deref B1).map Cell.from_cells_,
          (s.SetCell B1 "=A1".toList).result))
      = some ([(A1, []), (B1, [])], some [A1], .raised Exn.CircularDependencyException) := by
  decide!

/-- C3 (as amended): when `set_cell` raises an exception, the sheet after the call is the sheet
before it, or, where `pos` had no table entry and the exception is not
`InvalidPositionException`, the sheet before it with one new empty, unlinked cell at `pos`; no
other position gains or loses a cell. -/
theorem SetCell_exception_keeps_cells (s s1 : Sheet) (pos : Position) (text : List Char)
    (e : Exn) (h : s.SetCell pos text = .raised e s1) :
    (s1 = s ∨ (s.find pos = none ∧ e ≠ Exn.InvalidPositionException ∧ s1 = s.emplace pos)) ∧
      ∀ q, q ≠ pos → s1.deref q = s.deref q := by
  have h0 := Sheet.SetCell_raised h
  refine ⟨h0, fun q hq => ?_⟩
  rcases h0 with h1 | ⟨hf, _, h1⟩
  · rw [h1]
  · rw [h1, Sheet.deref_emplace hf]
    simp [hq]

/-- Witness of C3 (as amended): the rejected `set_cell(A1, "=A1")` on the empty sheet. -/
theorem SetCell_exception_keeps_cells_witness :
    Sheet.empty.SetCell A1 "=A1".toList
        = .raised Exn.CircularDependencyException (Sheet.empty.emplace A1) ∧
      ((Sheet.empty.emplace A1 = Sheet.empty ∨
          (Sheet.empty.find A1 = none ∧
            Exn.CircularDependencyException ≠ Exn.InvalidPositionException ∧
            Sheet.empty.emplace A1 = Sheet.empty.emplace A1)) ∧
        ∀ q, q ≠ A1 → (Sheet.empty.emplace A1).deref q = Sheet.empty.deref q) :=
  ⟨by decide!,
    SetCell_exception_keeps_cells Sheet.empty (Sheet.empty.emplace A1) A1 "=A1".toList
      Exn.CircularDependencyException (by decide!)⟩

/-- Counterexample to C3 as stated: on the empty sheet `set_cell(A1, "=A1")` raises
`CircularDependencyException`, and afterwards `get_cell(A1)` is a cell, where it was null
before the call. -/
theorem SetCell_exception_creates_cell :
    Sheet.empty.SetCell A1 "=A1".toList
        = .raised Exn.CircularDependencyException (Sheet.empty.emplace A1) ∧
      Sheet.empty.emplace A1 ≠ Sheet.empty ∧
      Sheet.empty.GetCell A1 = .ok none ∧
      (Sheet.empty.emplace A1).GetCell A1 = .ok (some A1) :=
  ⟨by decide!, by decide!, rfl, rfl⟩

/-- C4: in every sheet reachable from the empty sheet by `set_cell` and `clear_cell` calls,
returned or rejected, the graph with an edge from each cell to every position its current
content references has no cycle; in particular no cell references itself. -/
theorem dependency_graph_acyclic (s : Sheet) (h : Reachable s) :
    (∀ u, ¬ Relation.TransGen s.References u u) ∧ ∀ u, ¬ s.References u u := by
  have hinv := h.Inv
  have hac : ∀ u, ¬ Relation.TransGen s.References u u :=
    fun u hu => hinv.2 u (Relation.TransGen.mono hinv.1 hu)
  exact ⟨hac, fun u hu => hac u (Relation.TransGen.single hu)⟩

set_option maxRecDepth 100000 in
/-- Witness of C4: the sheet after `set_cell(A1,"=B1")`. -/
theorem dependency_graph_acyclic_witness :
    Reachable ⟨[(A1, some ⟨Impl.FormulaImpl "=B1".toList (FormulaAST.cell B1) none, [B1], []⟩),
        (B1, some ⟨Impl.EmptyImpl, [], [A1]⟩)]⟩ ∧
      ((∀ u, ¬ Relation.TransGen
          (Sheet.mk [(A1, some ⟨Impl.FormulaImpl "=B1".toList (FormulaAST.cell B1) none, [B1], []⟩),
            (B1, some ⟨Impl.EmptyImpl, [], [A1]⟩)]).References u u) ∧
        ∀ u, ¬ (Sheet.mk [(A1, some ⟨Impl.FormulaImpl "=B1".toList (FormulaAST.cell B1) none,
              [B1], []⟩),
            (B1, some ⟨Impl.EmptyImpl, [], [A1]⟩)]).References u u) :=
  ⟨Reachable.SetCell A1 "=B1".toList Reachable.empty (by decide!),
    dependency_graph_acyclic _
      (Reachable.SetCell A1 "=B1".toList Reachable.empty (by decide!))⟩

set_option maxRecDepth 100000 in
/-- C5, the code at the failing input: after `set_cell(A1,"=B1"); clear_cell(A1)` the cell at
`A1` is destroyed and the `from_cells_` of `B1` still holds the pointer to it; a following
`set_cell(B1,"x")` reads through that pointer. -/
theorem cleared_cell_stays_in_from_cells :
    (Sheet.empty.run [.set A1 "=B1", .clear A1]).map
        (fun s => (s.deref A1, (s.deref B1).map Cell.from_cells_, s.SetCell B1 "x".toList))
      = some (none, some [A1], .undefined) := by
  decide!

set_option maxRecDepth 100000 in
/-- C6, the code at the failing input: after `set_cell(A1,"x"); clear_cell(A1)` the call
`set_cell(A1,"y")` is undefined behaviour (a call through the null pointer left under the key
`A1`), where the claim has a successful return. -/
theorem set_after_clear_undefined :
    (Sheet.empty.run [.set A1 "x", .clear A1]).map (fun s => s.SetCell A1 "y".toList)
      = some .undefined := by
  decide!

set_option maxRecDepth 100000 in
/-- C7: `value()` observes the current contents. The result of `GetValue` on any sheet is its
result on the sheet with the same contents and every cache slot empty; for a formula cell it is
the result of one evaluation of its formula on that sheet, whatever its own cache slot holds;
and in a reachable sheet `value()` of a present cell returns that result. Scenario: `A1 = 2`,
`A2 = "=A1+3"` gives 5 for `A2`; after that read and `set_cell(A1,"10")` it gives 13. -/
theorem value_observes_current_contents :
    (∀ (fuel : Nat) (s : Sheet) (p : Position),
        (Cell.GetValue fuel s p).result = (Cell.GetValue fuel s.eraseCaches p).result) ∧
      (∀ (fuel : Nat) (s : Sheet) (p : Position) (c : Cell) (t : List Char) (f : FormulaAST)
          (cache : Option FormulaValue),
        s.deref p = some c → c.impl_ = Impl.FormulaImpl t f cache →
          (Cell.GetValue (fuel + 1) s p).result
            = (Cell.valueOnce (Formula.Evaluate (Cell.GetValue fuel) f) s.eraseCaches).result) ∧
      (∀ (s : Sheet) (p : Position), Reachable s → (s.deref p).isSome = true →
        ∃ v s1, s.value p = .ok v s1 ∧ (s.eraseCaches.value p).result = .ok v) ∧
      ((Sheet.empty.run [.set A1 "2", .set A2 "=A1+3"]).map (fun s => (s.value A2).result)
          = some (.ok (.num 5)) ∧
        (((Sheet.empty.run [.set A1 "2", .set A2 "=A1+3"]).bind
            (fun s => (s.value A2).sheet)).bind
            (fun s => (s.SetCell A1 "10".toList).sheet)).map (fun s => (s.value A2).result)
          = some (.ok (.num 13))) := by
  have hgen : ∀ (fuel : Nat) (s : Sheet) (p : Position),
      (Cell.GetValue fuel s p).result = (Cell.GetValue fuel s.eraseCaches p).result :=
    fun fuel s p =>
      (Cell.GetValue_agree fuel s s.eraseCaches p (Sheet.sameContents_eraseCaches s)).result
  refine ⟨hgen, fun fuel s p c t f cache hc hi => ?_, fun s p hr hp => ?_, by decide!,
    by decide!⟩
  · have hE : ∀ (s t : Sheet), s.SameContents t →
        Res.Agree s (Formula.Evaluate (Cell.GetValue fuel) f s)
          (Formula.Evaluate (Cell.GetValue fuel) f t) :=
      FormulaAST.Execute_agree (Cell.GetValue fuel) (Cell.GetValue_agree fuel) f
    have once := Cell.valueOnce_agree _ hE s s.eraseCaches (Sheet.sameContents_eraseCaches s)
    rw [Cell.GetValue_formula fuel hc hi]
    cases cache with
    | none => exact ((Cell.valueTwice_agree _ hE p s).chain once).result
    | some v => exact once.result
  · obtain ⟨v, s1, h1⟩ := Sheet.value_returns hr p hp
    refine ⟨v, s1, h1, ?_⟩
    have h2 := hgen s.valueFuel s p
    have hfuel : s.eraseCaches.valueFuel = s.valueFuel := by
      simp [Sheet.valueFuel, Sheet.eraseCaches]
    unfold Sheet.value at h1 ⊢
    rw [hfuel, ← h2, h1]
    rfl

set_option maxRecDepth 100000 in
/-- C8, the code at the failing input: with `A1 = 2`, `A2 = "=A1"`, `A3 = "=A2"`, reading
`A3` fills its cache with 2; `set_cell(A1,"10")` then leaves that cache populated with 2 while
a fresh evaluation of `A3` gives 10. -/
theorem stale_cache_after_set :
    (((Sheet.empty.run [.set A1 "2", .set A2 "=A1", .set A3 "=A2"]).bind
        (fun s => (s.value A3).sheet)).bind
        (fun s => (s.SetCell A1 "10".toList).sheet)).map
        (fun s => (s.cache A3, (s.value A3).result))
      = some (some (some (.num 2)), .ok (.num 10)) := by
  decide!

set_option maxRecDepth 100000 in
/-- C9, the code at the failing input: after `set_cell(A1,"=B1"); set_cell(A1,"5")` no cell
has a formula referencing `B1`, yet after `clear_cell(B1)` the cell at `B1` is still there. -/
theorem unreferenced_cell_survives_clear :
    (Sheet.empty.run [.set A1 "=B1", .set A1 "5", .clear B1]).map
        (fun s => (s.allReferenced, s.present B1, s.text B1))
      = some ([(A1, []), (B1, [])], true, some []) := by
  decide!

set_option maxRecDepth 100000 in
/-- C10, the code at the failing input: after `set_cell(A1,"x"); clear_cell(A1)` the key `A1`
holds a null pointer and `set_cell(A1,"'y")` is a call through it: undefined behaviour, where
the claim has the text `'y` and the value `y`. On the empty sheet `set_cell(A1,"'=hello")`
gives the text `'=hello` and the value `=hello`. -/
theorem escaped_text_after_clear_undefined :
    (Sheet.empty.run [.set A1 "x", .clear A1]).map
        (fun s => (s.find A1, s.SetCell A1 (ESCAPE_SIGN :: "y".toList)))
      = some (some none, .undefined) ∧
      (Sheet.empty.SetCell A1 (ESCAPE_SIGN :: "=hello".toList)).sheet.map
          (fun s => (s.text A1, (s.value A1).result))
        = some (some (ESCAPE_SIGN :: "=hello".toList), .ok (.str "=hello".toList)) := by
  decide!

/-- C11: `set_cell`, `get_cell` and `clear_cell` on an invalid position raise
`InvalidPositionException` and leave the sheet as it was. -/
theorem invalid_position_rejected (s : Sheet) (pos : Position) (text : List Char)
    (h : pos.IsValid = false) :
    s.SetCell pos text = .raised Exn.InvalidPositionException s ∧
      s.GetCell pos = .error Exn.InvalidPositionException ∧
      s.ClearCell pos = .raised Exn.InvalidPositionException s := by
  refine ⟨?_, ?_, ?_⟩
  · rw [Sheet.SetCell_eq]
    simp [h]
  · simp [Sheet.GetCell, Sheet.GetCellPtr, h]
  · simp [Sheet.ClearCell, h]

/-- Witness of C11: the position `(-1, -1)` on the empty sheet. -/
theorem invalid_position_rejected_witness :
    Position.NONE.IsValid = false ∧
      (Sheet.empty.SetCell Position.NONE "x".toList
          = .raised Exn.InvalidPositionException Sheet.empty ∧
        Sheet.empty.GetCell Position.NONE = .error Exn.InvalidPositionException ∧
        Sheet.empty.ClearCell Position.NONE
          = .raised Exn.InvalidPositionException Sheet.empty) :=
  ⟨by decide, invalid_position_rejected Sheet.empty Position.NONE "x".toList (by decide)⟩

set_option maxRecDepth 100000 in
/-- C13, the code at the failing input: after `set_cell(B1,"x"); clear_cell(B1)` the key `B1`
holds a null pointer and the self-referencing `set_cell(B1,"=B1+1")` is a call through it:
undefined behaviour, where the claim has `CircularDependencyException`. On the empty sheet
`set_cell(A1,"=A1")` does raise `CircularDependencyException`. -/
theorem self_reference_after_clear_undefined :
    (Sheet.empty.run [.set B1 "x", .clear B1]).map
        (fun s => (s.find B1, s.SetCell B1 "=B1+1".toList))
      = some (some none, .undefined) ∧
      (Sheet.empty.SetCell A1 "=A1".toList).result
        = .raised Exn.CircularDependencyException := by
  decide!

/-- C14: on every sheet reachable by `set_cell` and `clear_cell` calls, `printable_size()` is
the pair of the maximum of `row + 1` and the maximum of `col + 1` over the cells with non-empty
`text()`, and `(0, 0)` when there is none; the cells counted are exactly the positions at which
the sheet holds a cell whose text is not empty, so removed cells and Empty cells do not
contribute; every counted cell lies inside the size, and each dimension is attained by one of
them. -/
theorem printable_size (s : Sheet) (h : Reachable s) :
    s.GetPrintableSize = s.printableSizeSpec ∧
      (∀ p, p ∈ s.printedCells ↔ ∃ c, s.deref p = some c ∧ c.GetText ≠ []) ∧
      ((∀ p c, s.deref p = some c → c.GetText = []) → s.GetPrintableSize = ⟨0, 0⟩) ∧
      (∀ p c, s.deref p = some c → c.GetText ≠ [] →
        p.row + 1 ≤ s.GetPrintableSize.rows ∧ p.col + 1 ≤ s.GetPrintableSize.cols) ∧
      (∀ p c, s.deref p = some c → c.GetText ≠ [] →
        (∃ q d, s.deref q = some d ∧ d.GetText ≠ [] ∧ q.row + 1 = s.GetPrintableSize.rows) ∧
          ∃ q d, s.deref q = some d ∧ d.GetText ≠ [] ∧ q.col + 1 = s.GetPrintableSize.cols) := by
  have hs := h.WellFormed
  have heq := Sheet.GetPrintableSize_eq hs
  have hmem := Sheet.mem_printedCells hs
  refine ⟨heq, hmem, ?_, ?_, ?_⟩
  · intro hall
    have hnil : s.printedCells = [] := by
      apply List.eq_nil_iff_forall_not_mem.mpr
      intro p hp
      obtain ⟨c, hc, hne⟩ := (hmem p).mp hp
      exact hne (hall p c hc)
    rw [heq, Sheet.printableSizeSpec, hnil]
    rfl
  · intro p c hc hne
    have hp : p ∈ s.printedCells := (hmem p).mpr ⟨c, hc, hne⟩
    rw [heq]
    exact ⟨le_maxOrZero _ _ (List.mem_map.mpr ⟨p, hp, rfl⟩),
      le_maxOrZero _ _ (List.mem_map.mpr ⟨p, hp, rfl⟩)⟩
  · intro p c hc hne
    have hp : p ∈ s.printedCells := (hmem p).mpr ⟨c, hc, hne⟩
    have hne1 : s.printedCells.map (fun p => p.row + 1) ≠ [] := by
      intro e
      rw [List.map_eq_nil_iff] at e
      rw [e] at hp
      simp at hp
    have hne2 : s.printedCells.map (fun p => p.col + 1) ≠ [] := by
      intro e
      rw [List.map_eq_nil_iff] at e
      rw [e] at hp
      simp at hp
    obtain ⟨q1, hq1, e1⟩ := List.mem_map.mp (maxOrZero_mem _ hne1)
    obtain ⟨q2, hq2, e2⟩ := List.mem_map.mp (maxOrZero_mem _ hne2)
    obtain ⟨d1, hd1, hn1⟩ := (hmem q1).mp hq1
    obtain ⟨d2, hd2, hn2⟩ := (hmem q2).mp hq2
    rw [heq]
    exact ⟨⟨q1, d1, hd1, hn1, e1⟩, ⟨q2, d2, hd2, hn2, e2⟩⟩

set_option maxRecDepth 100000 in
/-- Witness of C14: after `set_cell(A3,"hello"); set_cell(B2,"world")` the printable size is
`(3, 2)`. -/
theorem printable_size_witness :
    Reachable ⟨[(A3, some ⟨Impl.TextImpl "hello".toList "hello".toList, [], []⟩),
        (B2, some ⟨Impl.TextImpl "world".toList "world".toList, [], []⟩)]⟩ ∧
      (Sheet.mk [(A3, some ⟨Impl.TextImpl "hello".toList "hello".toList, [], []⟩),
        (B2, some ⟨Impl.TextImpl "world".toList "world".toList, [], []⟩)]).GetPrintableSize
        = ⟨3, 2⟩ ∧
      (Sheet.mk [(A3, some ⟨Impl.TextImpl "hello".toList "hello".toList, [], []⟩),
        (B2, some ⟨Impl.TextImpl "world".toList "world".toList, [], []⟩)]).GetPrintableSize
        = (Sheet.mk [(A3, some ⟨Impl.TextImpl "hello".toList "hello".toList, [], []⟩),
        (B2, some ⟨Impl.TextImpl "world".toList "world".toList, [], []⟩)]).printableSizeSpec := by
  have h1 : Reachable ⟨[(A3, some ⟨Impl.TextImpl "hello".toList "hello".toList, [], []⟩)]⟩ :=
    Reachable.SetCell A3 "hello".toList Reachable.empty (by decide!)
  have h2 : Reachable ⟨[(A3, some ⟨Impl.TextImpl "hello".toList "hello".toList, [], []⟩),
      (B2, some ⟨Impl.TextImpl "world".toList "world".toList, [], []⟩)]⟩ :=
    Reachable.SetCell B2 "world".toList h1 (by decide!)
  exact ⟨h2, by decide!, (printable_size _ h2).1⟩

/-- C15: `clear_cell` on a valid position returns, and a second `clear_cell` on the same
position returns with the sheet exactly as the first one left it. -/
theorem clear_idempotent (s : Sheet) (pos : Position) (h : pos.IsValid = true) :
    ∃ s1, s.ClearCell pos = .ok () s1 ∧ s1.ClearCell pos = .ok () s1 := by
  unfold Sheet.ClearCell
  simp only [h, Bool.not_true, Bool.false_eq_true, if_false]
  cases hc : s.deref pos with
  | none =>
    refine ⟨s, rfl, ?_⟩
    simp only [hc]
  | some c =>
    simp only
    have hst := Sheet.deref_store hc c.Clear
    by_cases hr : (!c.Clear.IsReferenced) = true
    · simp only [hr, if_true]
      refine ⟨_, rfl, ?_⟩
      have : ((s.store pos c.Clear).reset pos).deref pos = none := by
        rw [Sheet.deref_reset]; simp
      simp only [this]
    · rw [if_neg hr]
      refine ⟨_, rfl, ?_⟩
      have hd : (s.store pos c.Clear).deref pos = some c.Clear := by rw [hst]; simp
      have hcc : c.Clear.Clear = c.Clear := rfl
      simp only [hd, hcc]
      rw [if_neg hr]
      simp only [Sheet.store, tableAssign_idem]

set_option maxRecDepth 100000 in
/-- Witness of C15: clearing `B1` twice after `set_cell(A1,"=B1")`. -/
theorem clear_idempotent_witness :
    B1.IsValid = true ∧
      ∃ s1, (Sheet.mk [(A1, some ⟨Impl.FormulaImpl "=B1".toList (FormulaAST.cell B1) none,
            [B1], []⟩), (B1, some ⟨Impl.EmptyImpl, [], [A1]⟩)]).ClearCell B1 = .ok () s1 ∧
        s1.ClearCell B1 = .ok () s1 :=
  ⟨by decide, clear_idempotent _ B1 (by decide)⟩

set_option maxRecDepth 100000 in
/-- C18, the code at the failing input: after `set_cell(A1,"=B1"); set_cell(A1,"=A2")` the
content of `A1` references `A2` alone, yet `to_cells_` of `A1` still holds `B1` and
`from_cells_` of `B1` still holds `A1`. -/
theorem old_edges_survive_set :
    (Sheet.empty.run [.set A1 "=B1", .set A1 "=A2"]).map
        (fun s => ((s.deref A1).map Cell.GetReferencedCells, (s.deref A1).map Cell.to_cells_,
          (s.deref B1).map Cell.from_cells_, (s.deref A2).map Cell.from_cells_))
      = some (some [A2], some [B1, A2], some [A1], some [A1]) := by
  decide!

set_option maxRecDepth 100000 in
/-- C19, the code at the failing input: after `set_cell(A1,"=B1"); clear_cell(A1)` the search
started at `B1` for the candidate `=A2` follows the pointer to the destroyed cell `A1` left in
`from_cells_` of `B1`: undefined behaviour, where the claim has the answer `false`. -/
theorem search_reads_destroyed_cell :
    (Sheet.empty.run [.set A1 "=B1", .clear A1]).bind
        (fun s => (Impl.ofText "=A2".toList).map
          (fun impl => ((s.deref B1).map Cell.from_cells_, s.deref A1,
            Cell.IsCyclicDependency s B1 impl)))
      = some (some [A1], none, .undefined) := by
  decide!

set_option maxRecDepth 100000 in
/-- C20, the code at the failing input: after `set_cell(B1,"x"); clear_cell(B1)` the key `B1`
is left with a null cell; `set_cell(B1,"y")` delegates to it, and so does the
`SetCell(B1, "")` that `Cell::Set` makes for `set_cell(A1,"=B1")`: both are calls through the
null pointer. -/
theorem set_delegates_to_null_cell :
    (Sheet.empty.run [.set B1 "x", .clear B1]).map
        (fun s => (s.find B1, s.GetCellPtr B1 |>.toOption, s.SetCell B1 "y".toList,
          s.SetCell A1 "=B1".toList))
      = some (some none, some none, .undefined, .undefined) := by
  decide!

end Spreadsheet
